import Mathlib

/-!
# Verification of the ShapeDetector pipeline

Shallow embedding of `frontend/src/utils/ShapeDetector.js` (the algorithmic
core of the shape-detection repository) and proofs about it.

Modelling conventions:

* JavaScript numbers are modelled as exact rationals (`ℚ`).  Decimal literals
  of the source (`0.299`, `0.12`, ...) become the corresponding exact
  rationals; `Math.PI` becomes `piQ`, the exact rational value of the IEEE-754
  double `Math.PI`.
* The irrational library functions used by the source (`Math.hypot`/`sqrt`,
  `Math.log10`, `Math.acos`) have no exact rational counterpart, so the
  embedding is parametrised by a bundle `MathOps` of such functions; theorems
  quantify over the bundle (with explicit hypotheses where a property of the
  real functions is needed) and concrete evaluations instantiate it with the
  computable `qOps`, which agrees with the IEEE functions on the arguments
  (perfect squares, zero) arising in those evaluations.
* Pixel coordinates are integers (`ℤ`); every point ever stored in a list by
  the source is an original pixel coordinate, so points are pairs of integers
  throughout.
* `ImageData.data` is a byte list; out-of-range reads (`undefined` in JS, and
  the `NaN | 0 = 0` collapse that follows them in the luminance computation)
  are modelled explicitly in `maskAt`.
* `performance.now()` is an ambient effect; the two sampled instants are
  passed to `detectShapes` as explicit arguments `t0 t1`.
* The two stack-driven loops of the source (flood fill, Douglas-Peucker) are
  modelled with an explicit fuel that provably dominates their iteration
  count, mirroring the explicit-stack structure of the source.
-/

namespace ShapeDetector

/-- Exact rational value of the IEEE-754 double `Math.PI`
(`884279719003555 × 2⁻⁴⁸`). -/
def piQ : ℚ := 884279719003555 / 281474976710656

/-- JavaScript `Math.round`: round half toward positive infinity. -/
def jsRound (q : ℚ) : ℤ := (q + 1/2).floor

/-- Fuel-free integer square root by linear scan (kernel-computable); exact on
perfect squares, which are the only arguments occurring in the concrete
evaluations below. -/
def natSqrtLin (n : ℕ) : ℕ :=
  (List.range (n + 1)).foldl (fun acc k => if k * k ≤ n then k else acc) 0

/-- A computable stand-in for `Math.sqrt` on rationals: exact whenever the
argument is the square of a rational. -/
def ratSqrt (q : ℚ) : ℚ :=
  (natSqrtLin (q.num.toNat * q.den) : ℚ) / (q.den : ℚ)

/-- Fueled (hence kernel-computable) floor base-10 logarithm. -/
def natLog10F : ℕ → ℕ → ℕ
  | 0, _ => 0
  | fuel + 1, n => if n < 10 then 0 else natLog10F fuel (n / 10) + 1

/-- A computable stand-in for `Math.log10`: floor of the base-10 logarithm of
the numerator (exact enough for the bounds used in witnesses). -/
def ratLog10 (q : ℚ) : ℚ := (natLog10F q.num.toNat q.num.toNat : ℚ)

/-- A computable stand-in for `Math.acos`: affine interpolation between
`acos (-1) = π` and `acos 1 = 0` (agrees with `Math.acos` at the endpoints). -/
def ratAcos (q : ℚ) : ℚ := piQ * (1 - q) / 2

/-- The bundle of irrational library functions the source calls; the embedding
is parametric in it. -/
structure MathOps where
  sqrt : ℚ → ℚ
  log10 : ℚ → ℚ
  acos : ℚ → ℚ

/-- `Math.hypot x y` as used by the source: the square root of `x² + y²`. -/
def hypotQ (ops : MathOps) (x y : ℚ) : ℚ := ops.sqrt (x * x + y * y)

/-- Concrete computable instantiation of `MathOps` used by witnesses. -/
def qOps : MathOps := ⟨ratSqrt, ratLog10, ratAcos⟩

/-- A second instantiation whose `log10` returns `1.447` (the value of
`Math.log10 28` to three decimals) on every argument; used to exhibit a
non-two-decimal confidence. -/
def cexOps : MathOps := ⟨ratSqrt, fun _ => 1447/1000, ratAcos⟩

/-- A pixel coordinate (`{x, y}` object of the source). -/
structure Pt where
  x : ℤ
  y : ℤ
deriving DecidableEq, Repr

/-- `cross(o, a, b)` of the source:
`(a.x - o.x) * (b.y - o.y) - (a.y - o.y) * (b.x - o.x)`. -/
def cross (o a b : Pt) : ℤ :=
  (a.x - o.x) * (b.y - o.y) - (a.y - o.y) * (b.x - o.x)

/-- Bounding box record (`{x, y, width, height}`). -/
structure BBox where
  x : ℤ
  y : ℤ
  width : ℤ
  height : ℤ
deriving DecidableEq, Repr

/-- The `imageData` input: width, height and the row-major RGBA byte list. -/
structure ImageData where
  width : ℕ
  height : ℕ
  data : List ℕ
deriving DecidableEq, Repr

/-- The detector's configuration fields (`this.threshold`, `this.minArea`;
`morphKernel` and `mergeGap` are never read by the source and are omitted). -/
structure DetectorConfig where
  threshold : ℚ
  minArea : ℕ
deriving DecidableEq, Repr

/-- The constructor defaults: `threshold = 128`, `minArea = 28`. -/
def defaultConfig : DetectorConfig := ⟨128, 28⟩

/-- Luminance `0.299*r + 0.587*g + 0.114*b` of one RGBA pixel. -/
def lumQ (r g b : ℕ) : ℚ :=
  (299/1000 : ℚ) * r + (587/1000 : ℚ) * g + (114/1000 : ℚ) * b

/-- The binary mask (step 1 of `detectShapes`).  The source writes
`mask[p] = l < threshold ? 1 : 0` for every `p` with `4p < data.length`
(and `p` inside the `width*height` typed array); when the pixel's bytes are
only partially present the luminance is `NaN` and `NaN | 0 = 0 < threshold`
makes the pixel foreground.  Pixels never written stay `0`. -/
def maskAt (img : ImageData) (threshold : ℚ) (idx : ℕ) : Bool :=
  if idx < img.width * img.height then
    if 4 * idx < img.data.length then
      if 4 * idx + 2 < img.data.length then
        decide ((Rat.floor (lumQ (img.data.getD (4*idx) 0)
          (img.data.getD (4*idx+1) 0) (img.data.getD (4*idx+2) 0)) : ℚ) < threshold)
      else decide ((0 : ℚ) < threshold)
    else false
  else false

/-- State of the explicit-stack flood fill: the stack (head = top), the
`seen` array, the visited pixels in reverse pop order, the running area and
the bounding-box extrema. -/
structure FloodSt where
  stack : List ℕ
  seen : ℕ → Bool
  pixelsRev : List Pt
  area : ℕ
  minX : ℕ
  minY : ℕ
  maxX : ℕ
  maxY : ℕ

/-- One conditional push of the flood fill
(`if (!seen[n] && mask[n] === 1) { seen[n] = 1; stack.push(n); }`). -/
def floodPush (mask : ℕ → Bool) (cond : Bool) (n : ℕ) (st : FloodSt) : FloodSt :=
  if cond ∧ ¬ st.seen n ∧ mask n then
    { st with seen := fun i => if i = n then true else st.seen i,
              stack := n :: st.stack }
  else st

/-- The `while (stack.length)` loop of the flood fill, with fuel.  Each
iteration pops one index, records the pixel, updates area and extrema, and
pushes the unseen foreground 4-neighbors in the source's order
(left, right, up, down; the stack is LIFO with head = array end). -/
def floodLoop (mask : ℕ → Bool) (w h : ℕ) : ℕ → FloodSt → FloodSt
  | 0, st => st
  | fuel + 1, st =>
    match st.stack with
    | [] => st
    | cur :: rest =>
      let cx := cur % w
      let cy := cur / w
      let st1 : FloodSt :=
        { st with stack := rest,
                  pixelsRev := ⟨cx, cy⟩ :: st.pixelsRev,
                  area := st.area + 1,
                  minX := min st.minX cx, minY := min st.minY cy,
                  maxX := max st.maxX cx, maxY := max st.maxY cy }
      let st2 := floodPush mask (decide (0 < cx)) (cur - 1) st1
      let st3 := floodPush mask (decide (cx < w - 1)) (cur + 1) st2
      let st4 := floodPush mask (decide (0 < cy)) (cur - w) st3
      let st5 := floodPush mask (decide (cy < h - 1)) (cur + w) st4
      floodLoop mask w h fuel st5

/-- A connected component as collected by step 2 of `detectShapes`. -/
structure Component where
  pixels : List Pt
  contour : List Pt
  area : ℕ
  boundingBox : BBox
deriving DecidableEq, Repr

/-- Squared Euclidean distance (the greedy boundary ordering compares these
exactly; no square root is involved). -/
def sqDist (a b : Pt) : ℤ := (a.x - b.x) * (a.x - b.x) + (a.y - b.y) * (a.y - b.y)

/-- The inner argmin scan of `orderBoundary`: first strictly-smaller squared
distance wins, starting from `bestDist = Infinity` (`none`). -/
def nearestScan (points : List Pt) (used : List Bool) (cur : Pt) : Option ℕ :=
  ((List.range points.length).foldl (fun best i =>
    if used.getD i true then best
    else
      let d := sqDist (points.getD i ⟨0, 0⟩) cur
      match best with
      | none => some (i, d)
      | some (bi, bd) => if d < bd then some (i, d) else some (bi, bd))
    none).map Prod.fst

/-- The greedy walk of `orderBoundary` (one iteration of the `step` loop per
unit of fuel; the source runs it `points.length - 1` times). -/
def orderLoop (points : List Pt) : ℕ → List Bool → List Pt → List Pt
  | 0, _, outRev => outRev.reverse
  | fuel + 1, used, outRev =>
    match nearestScan points used (outRev.getD 0 ⟨0, 0⟩) with
    | none => outRev.reverse
    | some i =>
        orderLoop points fuel (used.set i true) (points.getD i ⟨0, 0⟩ :: outRev)

/-- `orderBoundary` of the source: greedy nearest-neighbor ordering of the
boundary pixel set. -/
def orderBoundary (points : List Pt) : List Pt :=
  match points with
  | [] => []
  | p0 :: _ =>
    orderLoop points (points.length - 1)
      ((List.range points.length).map (fun i => i == 0)) [p0]

/-- `_traceBoundary`: collect (in row-major order over the bounding box) the
foreground pixels having a background 4-neighbor (out-of-image neighbors count
as background), then order them greedily. -/
def traceBoundary (mask : ℕ → Bool) (w h : ℕ) (minX minY maxX maxY : ℕ) : List Pt :=
  let boundary :=
    (List.range' minY (maxY + 1 - minY)).foldl (fun acc y =>
      acc ++ ((List.range' minX (maxX + 1 - minX)).filterMap (fun x =>
        let idx := y * w + x
        if mask idx then
          let left := if 0 < x then mask (idx - 1) else false
          let right := if x < w - 1 then mask (idx + 1) else false
          let up := if 0 < y then mask (idx - w) else false
          let down := if y < h - 1 then mask (idx + w) else false
          if left = false ∨ right = false ∨ up = false ∨ down = false then
            some ⟨(x : ℤ), (y : ℤ)⟩
          else none
        else none))) []
  orderBoundary boundary

/-- One index of the row-major component scan (the body of the nested
`for (y) for (x)` loop of step 2): an unseen foreground pixel seeds a flood
fill; if the component's area reaches `minArea` its contour is traced and it
is appended, otherwise only the `seen` markings persist. -/
def scanStep (cfg : DetectorConfig) (img : ImageData)
    (st : (ℕ → Bool) × List Component) (idx : ℕ) : (ℕ → Bool) × List Component :=
  let w := img.width
  let h := img.height
  let mask := maskAt img cfg.threshold
  let (seen, comps) := st
  if mask idx ∧ ¬ seen idx then
    let x := idx % w
    let y := idx / w
    let fl := floodLoop mask w h (w * h + 1)
      { stack := [idx],
        seen := fun i => if i = idx then true else seen i,
        pixelsRev := [], area := 0,
        minX := x, minY := y, maxX := x, maxY := y }
    if cfg.minArea ≤ fl.area then
      let contour := traceBoundary mask w h fl.minX fl.minY fl.maxX fl.maxY
      (fl.seen, comps ++ [{ pixels := fl.pixelsRev.reverse,
                            contour := contour,
                            area := fl.area,
                            boundingBox := ⟨(fl.minX : ℤ), (fl.minY : ℤ),
                              (fl.maxX : ℤ) - fl.minX + 1,
                              (fl.maxY : ℤ) - fl.minY + 1⟩ }])
    else (fl.seen, comps)
  else (seen, comps)

/-- Step 2 of `detectShapes`: fold the scan step over all pixel indices in
row-major order. -/
def findComponents (cfg : DetectorConfig) (img : ImageData) : List Component :=
  ((List.range (img.width * img.height)).foldl (scanStep cfg img)
    (fun _ => false, [])).2

/-- `polygonPerimeter`: sum of `Math.hypot` over the closed cyclic walk. -/
def polygonPerimeter (ops : MathOps) (points : List Pt) : ℚ :=
  (List.range points.length).foldl (fun p i =>
    let a := points.getD i ⟨0, 0⟩
    let b := points.getD ((i + 1) % points.length) ⟨0, 0⟩
    p + hypotQ ops ((a.x : ℚ) - b.x) ((a.y : ℚ) - b.y)) 0

/-- `centroidFromPixels`: rounded arithmetic mean of the pixel coordinates. -/
def centroidFromPixels (pixels : List Pt) : Pt :=
  match pixels with
  | [] => ⟨0, 0⟩
  | _ =>
    let sx : ℤ := (pixels.map Pt.x).sum
    let sy : ℤ := (pixels.map Pt.y).sum
    ⟨jsRound ((sx : ℚ) / pixels.length), jsRound ((sy : ℚ) / pixels.length)⟩

/-- `computeConfidence` of the source (the `vCount` and `perimeter` parameters
are accepted and never read, exactly as in the source). -/
def computeConfidence (ops : MathOps) (type : String) (vCount : ℕ)
    (circularity : ℚ) (area : ℕ) (perimeter : ℚ) : ℚ :=
  let base : ℚ := 1/2
  let base := if type = "triangle" then 9/10 else base
  let base := if type = "square" ∨ type = "rectangle" then 88/100 else base
  let base := if type = "circle" then 93/100 else base
  let base := if type = "polygon" then 65/100 else base
  let circBoost := min (15/100) (max 0 ((circularity - 4/10) * (1/2)))
  let sizeBoost := min (2/10) (ops.log10 (max 10 (area : ℚ)) * (3/100))
  let _ := vCount
  let _ := perimeter
  max (12/100) (min (99/100) (base + circBoost + sizeBoost))

/-- `perpendicularDistance` of the source: distance from `pt` to the line
through `a` and `b`, falling back to the point distance for a degenerate
(zero-length) chord. -/
def perpendicularDistance (ops : MathOps) (pt a b : Pt) : ℚ :=
  let dx := b.x - a.x
  let dy := b.y - a.y
  if dx = 0 ∧ dy = 0 then
    hypotQ ops ((pt.x : ℚ) - a.x) ((pt.y : ℚ) - a.y)
  else
    let t : ℚ := (((pt.x - a.x) * dx + (pt.y - a.y) * dy : ℤ) : ℚ)
      / ((dx * dx + dy * dy : ℤ) : ℚ)
    let projx : ℚ := (a.x : ℚ) + t * dx
    let projy : ℚ := (a.y : ℚ) + t * dy
    hypotQ ops ((pt.x : ℚ) - projx) ((pt.y : ℚ) - projy)

/-- The interior scan of one Douglas-Peucker range: the first index realising
a strictly larger distance wins (`d > maxDist`), starting from
`maxDist = 0, index = -1` (`none`). -/
def dpScan (ops : MathOps) (points : List Pt) (i j : ℕ) : ℚ × Option ℕ :=
  (List.range' (i + 1) (j - (i + 1))).foldl (fun st k =>
    let d := perpendicularDistance ops (points.getD k ⟨0, 0⟩)
      (points.getD i ⟨0, 0⟩) (points.getD j ⟨0, 0⟩)
    if d > st.1 then (d, some k) else st) (0, none)

/-- The explicit-stack loop of `douglasPeucker`, with fuel.  Popping a range
whose maximal interior distance exceeds `epsilon` marks that interior index
kept and pushes the two sub-ranges (the source pushes `[i, index]` then
`[index, j]`, so `[index, j]` is processed first). -/
def dpLoop (ops : MathOps) (points : List Pt) (epsilon : ℚ) :
    ℕ → List (ℕ × ℕ) → List Bool → List Bool
  | 0, _, keep => keep
  | _ + 1, [], keep => keep
  | fuel + 1, (i, j) :: rest, keep =>
    match dpScan ops points i j with
    | (maxDist, index) =>
      if maxDist > epsilon then
        match index with
        | some m => dpLoop ops points epsilon fuel ((m, j) :: (i, m) :: rest)
            (keep.set m true)
        | none => dpLoop ops points epsilon fuel rest keep
      else dpLoop ops points epsilon fuel rest keep

/-- `douglasPeucker` of the source.  Lists of fewer than 3 points are returned
as-is; otherwise the first and last index are always kept and the iterative
range-splitting loop runs (fuel `2 * length + 2` strictly dominates the loop's
iteration count, see `dpLoop_measure` below).  (For `epsilon < 0` and `index
= -1` the source would loop forever; the fuel returns the current markers
instead — no claim involves a negative epsilon.) -/
def douglasPeucker (ops : MathOps) (points : List Pt) (epsilon : ℚ) : List Pt :=
  if points.length < 3 then points
  else
    let n := points.length
    let keep0 := ((List.range n).map (fun i => i == 0 || i == n - 1))
    let keep := dpLoop ops points epsilon (2 * n + 2) [(0, n - 1)] keep0
    (List.range n).filterMap (fun i =>
      if keep.getD i false then some (points.getD i ⟨0, 0⟩) else none)

/-- `removeColinear` of the source: drop every vertex whose two incident
directions are within `angleTolDeg` degrees of a straight angle; if fewer than
3 vertices would remain, return the input unchanged. -/
def removeColinear (ops : MathOps) (points : List Pt) (angleTolDeg : ℚ) : List Pt :=
  if points.length ≤ 3 then points
  else
    let n := points.length
    let tol := angleTolDeg * piQ / 180
    let res := (List.range n).filterMap (fun i =>
      let prev := points.getD ((i + n - 1) % n) ⟨0, 0⟩
      let cur := points.getD i ⟨0, 0⟩
      let next := points.getD ((i + 1) % n) ⟨0, 0⟩
      let v1x : ℚ := (prev.x : ℚ) - cur.x
      let v1y : ℚ := (prev.y : ℚ) - cur.y
      let v2x : ℚ := (next.x : ℚ) - cur.x
      let v2y : ℚ := (next.y : ℚ) - cur.y
      let n1 := let t := hypotQ ops v1x v1y; if t = 0 then 1 else t
      let n2 := let t := hypotQ ops v2x v2y; if t = 0 then 1 else t
      let dot := (v1x * v2x + v1y * v2y) / (n1 * n2)
      let ang := ops.acos (max (-1) (min 1 dot))
      if |piQ - ang| > tol then some cur else none)
    if 3 ≤ res.length then res else points

/-- The lexicographic comparator of the source's sort callback
(`a.x === b.x ? a.y - b.y : a.x - b.x`). -/
def lexLe (a b : Pt) : Prop := a.x < b.x ∨ (a.x = b.x ∧ a.y ≤ b.y)

instance : DecidableRel lexLe := fun a b => by
  unfold lexLe; infer_instance

/-- One push of the monotone-chain construction, preceded by the
`while (chain.length >= 2 && cross(..) <= 0) chain.pop()` loop.  The chain is
kept in reverse (head = most recently pushed). -/
def chainPush (acc : List Pt) (p : Pt) : List Pt :=
  match acc with
  | b :: a :: rest => if cross a b p ≤ 0 then chainPush (a :: rest) p
      else p :: b :: a :: rest
  | _ => p :: acc

/-- Fold `chainPush` over a point list (builds the lower chain on the sorted
list, the upper chain on its reverse); result is in reverse push order. -/
def buildChain (acc : List Pt) : List Pt → List Pt
  | [] => acc
  | p :: rest => buildChain (chainPush acc p) rest

/-- `convexHull` of the source: Andrew's monotone chain.  Inputs of at most
one point are returned as-is; otherwise sort lexicographically, build both
chains, drop the last element of each (`upper.pop(); lower.pop()`) and
concatenate. -/
def convexHull (points : List Pt) : List Pt :=
  if points.length ≤ 1 then points
  else
    let pts := points.insertionSort lexLe
    let lowerRev := buildChain [] pts
    let upperRev := buildChain [] pts.reverse
    lowerRev.tail.reverse ++ upperRev.tail.reverse

/-- Minimum of the `x` coordinates as computed by the source's
`forEach` starting from `Infinity` (total on nonempty lists; the `[]` case is
never reached by the caller, which guards on length 4). -/
def foldMinX : List Pt → ℤ
  | [] => 0
  | p :: r => r.foldl (fun m q => min m q.x) p.x

/-- Maximum of the `x` coordinates (from `-Infinity`). -/
def foldMaxX : List Pt → ℤ
  | [] => 0
  | p :: r => r.foldl (fun m q => max m q.x) p.x

/-- Minimum of the `y` coordinates (from `Infinity`). -/
def foldMinY : List Pt → ℤ
  | [] => 0
  | p :: r => r.foldl (fun m q => min m q.y) p.y

/-- Maximum of the `y` coordinates (from `-Infinity`). -/
def foldMaxY : List Pt → ℤ
  | [] => 0
  | p :: r => r.foldl (fun m q => max m q.y) p.y

/-- The classification decision of `detectShapes` (source lines 100–120):
3 hull vertices → triangle; 4 → square/rectangle by the aspect ratio of the
hull's bounding box (`w` and `h` replaced by 1 when zero, the `|| 1` of the
source); otherwise circle when the circularity exceeds `0.7`, else polygon. -/
def classifyShape (hullClean : List Pt) (circularity : ℚ) : String :=
  if hullClean.length = 3 then "triangle"
  else if hullClean.length = 4 then
    let minX := foldMinX hullClean
    let maxX := foldMaxX hullClean
    let minY := foldMinY hullClean
    let maxY := foldMaxY hullClean
    let w := if maxX - minX = 0 then 1 else maxX - minX
    let h := if maxY - minY = 0 then 1 else maxY - minY
    let ar : ℚ := (w : ℚ) / (h : ℚ)
    if |ar - 1| < 12/100 then "square" else "rectangle"
  else if circularity > 7/10 then "circle"
  else "polygon"

/-- One output record (`outShapes.push({...})` of the source). -/
structure ShapeRecord where
  type : String
  vertices : List Pt
  rawVertices : List Pt
  center : Pt
  area : ℕ
  boundingBox : BBox
  confidence : ℚ
deriving DecidableEq, Repr

/-- The filtered hull polygon of a component (the `hullClean` local of the
source): Douglas-Peucker with `ε = max(4, 0.02 · perimeter)`, colinear
cleanup, convex hull, colinear cleanup again. -/
def hullCleanOf (ops : MathOps) (c : Component) : List Pt :=
  let perimeter := polygonPerimeter ops c.contour
  let eps := max 4 ((2/100) * perimeter)
  let approx := douglasPeucker ops c.contour eps
  let approxClean := removeColinear ops approx 6
  let hull := convexHull approxClean
  removeColinear ops hull 6

/-- The `approx` intermediate (kept in the record as `rawVertices`). -/
def approxOf (ops : MathOps) (c : Component) : List Pt :=
  douglasPeucker ops c.contour (max 4 ((2/100) * polygonPerimeter ops c.contour))

/-- The circularity of a component exactly as the source computes it:
`4π·area / perimeter²` with the raw flood-filled area and the perimeter of
the traced boundary path before simplification, and `0` when the perimeter is
not positive. -/
def circularityOf (ops : MathOps) (c : Component) : ℚ :=
  let perimeter := polygonPerimeter ops c.contour
  if perimeter > 0 then (4 * piQ * (c.area : ℚ)) / (perimeter * perimeter) else 0

/-- Step 3 of `detectShapes` for one retained component: simplify, hull,
classify, centroid, confidence, assemble the record. -/
def analyzeComponent (ops : MathOps) (c : Component) : ShapeRecord :=
  let perimeter := polygonPerimeter ops c.contour
  let hullClean := hullCleanOf ops c
  let type := classifyShape hullClean (circularityOf ops c)
  { type := type,
    vertices := hullClean,
    rawVertices := approxOf ops c,
    center := centroidFromPixels c.pixels,
    area := c.area,
    boundingBox := c.boundingBox,
    confidence := computeConfidence ops type hullClean.length
      (circularityOf ops c) c.area perimeter }

/-- The value returned by `detectShapes`. -/
structure DetectResult where
  shapes : List ShapeRecord
  processingTime : ℚ
deriving DecidableEq, Repr

/-- The keys of the object literal returned by `detectShapes`
(source lines 138–141: `return { shapes: outShapes, processingTime: t1 - t0 }`). -/
def detectResultFields : List String := ["shapes", "processingTime"]

/-- `detectShapes`: mask, components, per-component analysis (components whose
traced contour has fewer than 6 points are skipped), timing.  `t0` and `t1`
are the two `performance.now()` samples. -/
def detectShapes (ops : MathOps) (cfg : DetectorConfig) (img : ImageData)
    (t0 t1 : ℚ) : DetectResult :=
  let comps := findComponents cfg img
  { shapes := (comps.filter (fun c => 6 ≤ c.contour.length)).map
      (analyzeComponent ops),
    processingTime := t1 - t0 }

/-! ## Spec-side definitions

The following definitions transcribe the *specification's words* (not the
source); they exist to be compared with the source-derived definitions
above. -/

/-- From the spec, §7: a malformed input is a buffer whose length differs from
`width×height×4`, or non-positive width or height. -/
def inputMalformed (width height : ℕ) (dataLen : ℕ) : Bool :=
  decide (dataLen ≠ width * height * 4) || decide (width = 0) || decide (height = 0)

/-- From the spec, §6: the keys the output contract requires of the returned
record. -/
def specResultFields : List String :=
  ["shapes", "processingTime", "imageWidth", "imageHeight"]

/-- From the spec, §4.7: the classification policy in its fixed order, stated
with the spec's own wording ("width,height floored to ≥1", circularity
`4π·area/perimeter²` — `piQ` is the double the source's `Math.PI` denotes). -/
def specClassify (hull : List Pt) (area : ℕ) (perimeter : ℚ) : String :=
  if hull.length = 3 then "triangle"
  else if hull.length = 4 then
    let w := max 1 (foldMaxX hull - foldMinX hull)
    let h := max 1 (foldMaxY hull - foldMinY hull)
    if |(w : ℚ) / (h : ℚ) - 1| < 12/100 then "square" else "rectangle"
  else if (4 * piQ * (area : ℚ)) / (perimeter * perimeter) > 7/10 then "circle"
  else "polygon"

/-- From the spec, §4.7: confidence = base value by resolved type plus
circularity boost plus size boost, clamped to [0.12, 0.99]. -/
def specConfidence (ops : MathOps) (type : String) (circularity : ℚ)
    (area : ℕ) : ℚ :=
  let base : ℚ :=
    if type = "triangle" then 9/10
    else if type = "square" ∨ type = "rectangle" then 88/100
    else if type = "circle" then 93/100
    else if type = "polygon" then 65/100
    else 1/2
  let circBoost := min (15/100) (max 0 ((circularity - 4/10) * (1/2)))
  let sizeBoost := min (2/10) (ops.log10 (max 10 (area : ℚ)) * (3/100))
  max (12/100) (min (99/100) (base + circBoost + sizeBoost))

/-- Rounding to two decimal places (JavaScript rounding of `100·q`). -/
def round2 (q : ℚ) : ℚ := ((jsRound (q * 100) : ℚ)) / 100

/-- Bool test: a cyclically-indexed polygon makes a strict left turn at every
vertex (the spec's "convex, no internal reflex angle"). -/
def isConvexCCWb (h : List Pt) : Bool :=
  (List.range h.length).all (fun i =>
    decide (0 < cross (h.getD i ⟨0, 0⟩) (h.getD ((i + 1) % h.length) ⟨0, 0⟩)
      (h.getD ((i + 2) % h.length) ⟨0, 0⟩)))

/-- Bool test: `p` lies weakly to the left of every directed edge of the
cyclically-indexed polygon `h` — the standard "on or inside" test for a
counter-clockwise convex polygon. -/
def insideHullb (h : List Pt) (p : Pt) : Bool :=
  (List.range h.length).all (fun i =>
    decide (0 ≤ cross (h.getD i ⟨0, 0⟩) (h.getD ((i + 1) % h.length) ⟨0, 0⟩) p))

/-! ## Concrete inputs for witnesses and counterexamples -/

/-- A 28×1 all-black image: one component of exactly `minArea` pixels whose
boundary is a straight line — the degenerate case distinguishing several
claims. -/
def barImage : ImageData := ⟨28, 1, List.replicate 112 0⟩

/-- A malformed buffer: width 2, height 2, but only 4 data bytes
(one white pixel) instead of 16. -/
def malImage : ImageData := ⟨2, 2, [255, 255, 255, 255]⟩

/-! ## Basic facts used by several claims -/

/-- `ratSqrt` never returns a negative value. -/
theorem ratSqrt_nonneg (q : ℚ) : 0 ≤ ratSqrt q := by
  unfold ratSqrt
  positivity

/-- A perimeter computed with a nonnegative square root is nonnegative. -/
theorem polygonPerimeter_nonneg (ops : MathOps)
    (hs : ∀ q, 0 ≤ ops.sqrt q) (points : List Pt) :
    0 ≤ polygonPerimeter ops points := by
  unfold polygonPerimeter
  have h : ∀ (l : List ℕ) (init : ℚ), 0 ≤ init →
      0 ≤ l.foldl (fun p i =>
        let a := points.getD i ⟨0, 0⟩
        let b := points.getD ((i + 1) % points.length) ⟨0, 0⟩
        p + hypotQ ops ((a.x : ℚ) - b.x) ((a.y : ℚ) - b.y)) init := by
    intro l
    induction l with
    | nil => intro init h0; simpa using h0
    | cons x xs ih =>
        intro init h0
        simp only [List.foldl_cons]
        exact ih _ (add_nonneg h0 (hs _))
  exact h _ 0 le_rfl

/-! ## C10 — determinism -/

/-- C10: two runs of `detectShapes` on an identical buffer with identical
configuration (and identical math library) produce an identical shape list,
whatever the two pairs of clock samples were: the shape list is a pure
function of the configuration and the buffer. -/
theorem detectShapes_deterministic (ops : MathOps) (cfg : DetectorConfig)
    (img : ImageData) (t0 t1 t0' t1' : ℚ) :
    (detectShapes ops cfg img t0 t1).shapes
      = (detectShapes ops cfg img t0' t1').shapes := rfl

/-! ## C3 — the returned record -/

/-- C3 counterexample: the object returned by `detectShapes` has exactly the
keys `shapes` and `processingTime`; it does not carry the source image
dimensions required by the spec's output contract. -/
theorem detectResult_missing_dimensions :
    "imageWidth" ∉ detectResultFields ∧ "imageHeight" ∉ detectResultFields ∧
      detectResultFields ≠ specResultFields := by
  refine ⟨?_, ?_, ?_⟩ <;> decide

/-- C3 (amended): for every well-formed input the returned value contains the
shape list plus the wall-clock processing time `t1 - t0`, and nothing else —
in particular no `imageWidth`/`imageHeight` fields exist on the result. -/
theorem detectShapes_result_contents (ops : MathOps) (cfg : DetectorConfig)
    (img : ImageData) (t0 t1 : ℚ) :
    (detectShapes ops cfg img t0 t1).processingTime = t1 - t0 ∧
      detectResultFields = ["shapes", "processingTime"] :=
  ⟨rfl, rfl⟩

/-! ## C1 — (absence of) input validation -/

set_option maxRecDepth 100000 in
set_option maxHeartbeats 1000000 in
unseal Rat.add Rat.mul Rat.inv Rat.sub in
/-- C1 counterexample: a malformed buffer (4 bytes for a claimed 2×2 image,
so `length ≠ width×height×4`) is processed without any error: the call runs
to completion and returns the ordinary, fully-formed result
`{shapes: [], processingTime: 0}` instead of failing fast.  (The source
function has no error path at all: no validation, no `throw`.) -/
theorem detectShapes_accepts_malformed :
    inputMalformed malImage.width malImage.height malImage.data.length = true ∧
      detectShapes qOps defaultConfig malImage 0 0 = ⟨[], 0⟩ :=
  ⟨by decide, by decide⟩

/-- C1 (amended): `detectShapes` performs no input validation.  On every
buffer — malformed ones included — it returns a complete ordinary result:
the processing time is `t1 - t0`, pixels none of whose bytes are present in a
short buffer are background, and a pixel whose bytes are only partially
present is foreground (for a positive threshold), exactly as the untyped
arithmetic of the source behaves (`NaN | 0 = 0 < threshold`). -/
theorem detectShapes_no_validation (ops : MathOps) (cfg : DetectorConfig)
    (img : ImageData) (t0 t1 : ℚ)
    (_hmal : inputMalformed img.width img.height img.data.length = true) :
    (detectShapes ops cfg img t0 t1).processingTime = t1 - t0 ∧
      (∀ idx, img.data.length ≤ 4 * idx →
        maskAt img cfg.threshold idx = false) ∧
      (∀ idx, idx < img.width * img.height → 4 * idx < img.data.length →
        img.data.length ≤ 4 * idx + 2 → 0 < cfg.threshold →
        maskAt img cfg.threshold idx = true) := by
  refine ⟨rfl, ?_, ?_⟩
  · intro idx hlen
    unfold maskAt
    have h4 : ¬ (4 * idx < img.data.length) := not_lt.mpr hlen
    simp [h4]
  · intro idx hidx h4 hlen hT
    unfold maskAt
    have h42 : ¬ (4 * idx + 2 < img.data.length) := not_lt.mpr hlen
    simp [hidx, h4, h42, hT]

/-! ## C8 — confidence precision -/

set_option maxRecDepth 100000 in
set_option maxHeartbeats 1000000 in
unseal Rat.add Rat.mul Rat.inv Rat.sub in
/-- C8 counterexample: a returned confidence that does not have two decimal
places.  With a math bundle whose `log10` returns `1.447` (the three-decimal
value of `Math.log10 28`), the 28×1 bar image produces confidence
`0.65 + 0.04341 = 0.69341`, which differs from its two-decimal rounding
`0.69`. -/
theorem confidence_not_two_decimals :
    ∃ s ∈ (detectShapes cexOps defaultConfig barImage 0 0).shapes,
      round2 s.confidence ≠ s.confidence := by
  decide

/-- The `confidence` field of an analysed component is the raw value of
`computeConfidence` at the record's resolved type, the filtered hull's vertex
count, the component's circularity, raw area, and traced perimeter. -/
theorem analyze_confidence_eq (ops : MathOps) (c : Component) :
    (analyzeComponent ops c).confidence
      = computeConfidence ops (analyzeComponent ops c).type
        (hullCleanOf ops c).length (circularityOf ops c) c.area
        (polygonPerimeter ops c.contour) := by
  simp only [analyzeComponent]

/-- C8 (amended): the `confidence` field of every record is the raw clamped
value of `computeConfidence` — no rounding to two decimal places is applied
anywhere in the pipeline. -/
theorem confidence_unrounded (ops : MathOps) (c : Component) :
    (analyzeComponent ops c).confidence
      = computeConfidence ops (analyzeComponent ops c).type
        (hullCleanOf ops c).length (circularityOf ops c) c.area
        (polygonPerimeter ops c.contour) :=
  analyze_confidence_eq ops c

/-! ## C5 — the confidence formula and its bounds -/

/-- `computeConfidence` agrees with the spec's formula for every type string,
and its value is always within `[0.12, 0.99]` (the clamp). -/
theorem computeConfidence_eq_spec (ops : MathOps) (type : String) (vCount : ℕ)
    (circularity : ℚ) (area : ℕ) (perimeter : ℚ) :
    computeConfidence ops type vCount circularity area perimeter
        = specConfidence ops type circularity area ∧
      12/100 ≤ computeConfidence ops type vCount circularity area perimeter ∧
      computeConfidence ops type vCount circularity area perimeter ≤ 99/100 := by
  refine ⟨?_, ?_, ?_⟩
  · unfold computeConfidence specConfidence
    rcases eq_or_ne type "triangle" with h1 | h1 <;>
      rcases eq_or_ne type "square" with h2 | h2 <;>
        rcases eq_or_ne type "rectangle" with h3 | h3 <;>
          rcases eq_or_ne type "circle" with h4 | h4 <;>
            rcases eq_or_ne type "polygon" with h5 | h5 <;>
              simp_all
  · unfold computeConfidence
    exact le_max_left _ _
  · unfold computeConfidence
    exact max_le (by norm_num) (min_le_left _ _)

/-- C5: the confidence of every analysed component equals the spec formula
(base value by resolved type, plus circularity boost, plus size boost,
clamped), and every confidence in a `detectShapes` result lies within
`[0.12, 0.99]`. -/
theorem confidence_formula_and_bounds (ops : MathOps) (cfg : DetectorConfig)
    (img : ImageData) (t0 t1 : ℚ) :
    (∀ c : Component, (analyzeComponent ops c).confidence
        = specConfidence ops (analyzeComponent ops c).type
            (circularityOf ops c) c.area) ∧
      (∀ s ∈ (detectShapes ops cfg img t0 t1).shapes,
        12/100 ≤ s.confidence ∧ s.confidence ≤ 99/100) := by
  constructor
  · intro c
    rw [analyze_confidence_eq]
    exact (computeConfidence_eq_spec ops ((analyzeComponent ops c).type)
      (hullCleanOf ops c).length (circularityOf ops c) c.area
      (polygonPerimeter ops c.contour)).1
  · intro s hs
    simp only [detectShapes, List.mem_map] at hs
    obtain ⟨c, _, rfl⟩ := hs
    rw [analyze_confidence_eq]
    exact ⟨(computeConfidence_eq_spec _ _ _ _ _ _).2.1,
      (computeConfidence_eq_spec _ _ _ _ _ _).2.2⟩

/-- The record the pipeline produces for the 28×1 bar image (under `qOps`):
a degenerate two-vertex "polygon". -/
def barRecord : ShapeRecord :=
  ⟨"polygon", [⟨0, 0⟩, ⟨27, 0⟩], [⟨0, 0⟩, ⟨27, 0⟩], ⟨14, 0⟩, 28,
    ⟨0, 0, 28, 1⟩, 17/25⟩

set_option maxRecDepth 100000 in
set_option maxHeartbeats 1000000 in
unseal Rat.add Rat.mul Rat.inv Rat.sub in
/-- Full evaluation of the pipeline on the bar image. -/
theorem barEval :
    (detectShapes qOps defaultConfig barImage 0 0).shapes = [barRecord] := by
  decide

/-- Membership form of `barEval`. -/
theorem barRecord_mem :
    barRecord ∈ (detectShapes qOps defaultConfig barImage 0 0).shapes := by
  rw [barEval]; exact List.mem_singleton.mpr rfl

/-- C5 witness: the bar image produces a record, and the claim's bound holds
for it by the theorem. -/
theorem confidence_formula_and_bounds_witness :
    ∃ s ∈ (detectShapes qOps defaultConfig barImage 0 0).shapes,
      12/100 ≤ s.confidence ∧ s.confidence ≤ 99/100 :=
  ⟨barRecord, barRecord_mem,
    (confidence_formula_and_bounds qOps defaultConfig barImage 0 0).2
      barRecord barRecord_mem⟩

/-! ## C9 — promotion criteria -/

/-- `scanStep` only appends components whose area reached `minArea`. -/
theorem scanStep_minArea (cfg : DetectorConfig) (img : ImageData)
    (st : (ℕ → Bool) × List Component) (idx : ℕ)
    (hst : ∀ c ∈ st.2, cfg.minArea ≤ c.area) :
    ∀ c ∈ (scanStep cfg img st idx).2, cfg.minArea ≤ c.area := by
  obtain ⟨seen, comps⟩ := st
  intro c hc
  simp only [scanStep, apply_ite Prod.snd] at hc
  split at hc
  · split at hc
    · next harea =>
        rcases List.mem_append.mp hc with h | h
        · exact hst c h
        · simp only [List.mem_singleton] at h
          subst h
          exact harea
    · exact hst c hc
  · exact hst c hc

/-- Every component collected by the scan has area at least `minArea` (the
flood-fill stage discards smaller components before tracing). -/
theorem findComponents_minArea (cfg : DetectorConfig) (img : ImageData) :
    ∀ c ∈ findComponents cfg img, cfg.minArea ≤ c.area := by
  unfold findComponents
  generalize List.range (img.width * img.height) = l
  have h : ∀ (l : List ℕ) (st : (ℕ → Bool) × List Component),
      (∀ c ∈ st.2, cfg.minArea ≤ c.area) →
      ∀ c ∈ (l.foldl (scanStep cfg img) st).2, cfg.minArea ≤ c.area := by
    intro l
    induction l with
    | nil => intro st hst; exact hst
    | cons idx rest ih =>
        intro st hst
        simp only [List.foldl_cons]
        exact ih _ (scanStep_minArea cfg img st idx hst)
  exact h l (fun _ => false, []) (by simp)

/-- C9: a component is promoted to a returned shape record only if its
flood-filled area reached `minArea` and its traced boundary has at least 6
points: every returned record has `area ≥ minArea` and stems from a collected
component with a contour of at least 6 points via `analyzeComponent`. -/
theorem shapes_promotion_criteria (ops : MathOps) (cfg : DetectorConfig)
    (img : ImageData) (t0 t1 : ℚ) :
    ∀ s ∈ (detectShapes ops cfg img t0 t1).shapes,
      cfg.minArea ≤ s.area ∧
        ∃ c ∈ findComponents cfg img, 6 ≤ c.contour.length ∧
          s = analyzeComponent ops c := by
  intro s hs
  simp only [detectShapes, List.mem_map, List.mem_filter] at hs
  obtain ⟨c, ⟨hc, hc6⟩, rfl⟩ := hs
  have harea : (analyzeComponent ops c).area = c.area := rfl
  refine ⟨?_, c, hc, by simpa using hc6, rfl⟩
  rw [harea]
  exact findComponents_minArea cfg img c hc

set_option maxRecDepth 100000 in
set_option maxHeartbeats 1000000 in
unseal Rat.add Rat.mul Rat.inv Rat.sub in
/-- C9 witness: the bar image's single record has area `28 ≥ minArea` and
stems from a component whose traced boundary has 28 ≥ 6 points. -/
theorem shapes_promotion_criteria_witness :
    defaultConfig.minArea ≤ barRecord.area ∧
      ∃ c ∈ findComponents defaultConfig barImage, 6 ≤ c.contour.length ∧
        barRecord = analyzeComponent qOps c :=
  shapes_promotion_criteria qOps defaultConfig barImage 0 0 barRecord barRecord_mem

/-! ## C2 — vertex counts of returned polygons -/

/-- `getD _ false = true` is preserved by setting any position to `true`. -/
theorem getD_set_true (l : List Bool) (m i : ℕ) (h : l.getD i false = true) :
    (l.set m true).getD i false = true := by
  by_cases hi : i < l.length
  · rcases eq_or_ne m i with rfl | hne
    · simp [List.getD_eq_getElem?_getD, List.getElem?_set_self (by simpa using hi)]
    · simpa [List.getD_eq_getElem?_getD, List.getElem?_set_ne hne] using h
  · rw [List.getD_eq_getElem?_getD, List.getElem?_eq_none (by omega)] at h
    simp at h

/-- `dpLoop` only ever turns `keep` markers on. -/
theorem dpLoop_keep_mono (ops : MathOps) (points : List Pt) (eps : ℚ) (i : ℕ) :
    ∀ (fuel : ℕ) (st : List (ℕ × ℕ)) (keep : List Bool),
      keep.getD i false = true →
      (dpLoop ops points eps fuel st keep).getD i false = true := by
  intro fuel
  induction fuel with
  | zero => intro st keep h; simpa [dpLoop] using h
  | succ fuel ih =>
      intro st keep h
      match st with
      | [] => simpa [dpLoop] using h
      | (a, b) :: rest =>
          rw [dpLoop]
          rcases hscan : dpScan ops points a b with ⟨maxDist, index⟩
          dsimp only
          split
          · rcases index with _ | m
            · exact ih _ _ h
            · exact ih _ _ (getD_set_true _ _ _ h)
          · exact ih _ _ h

/-- The initial `keep` markers of `douglasPeucker` are set at the endpoints. -/
theorem dpKeep0_endpoints (n : ℕ) (hn : 3 ≤ n) :
    ((List.range n).map (fun i => i == 0 || i == n - 1)).getD 0 false = true ∧
      ((List.range n).map (fun i => i == 0 || i == n - 1)).getD (n-1) false = true := by
  constructor
  · rw [List.getD_eq_getElem?_getD, List.getElem?_map]
    rw [List.getElem?_range (by omega)]
    simp
  · rw [List.getD_eq_getElem?_getD, List.getElem?_map]
    rw [List.getElem?_range (by omega)]
    simp

/-- A Douglas-Peucker simplification of a list of at least 3 points keeps at
least the two endpoints. -/
theorem douglasPeucker_length_ge_two (ops : MathOps) (points : List Pt)
    (eps : ℚ) (h3 : 3 ≤ points.length) :
    2 ≤ (douglasPeucker ops points eps).length := by
  simp only [douglasPeucker]
  rw [if_neg (by omega)]
  set n := points.length with hn
  set keep := dpLoop ops points eps (2 * n + 2) [(0, n - 1)]
    ((List.range n).map (fun i => i == 0 || i == n - 1)) with hkeep
  have h0 : keep.getD 0 false = true :=
    dpLoop_keep_mono ops points eps 0 _ _ _ (dpKeep0_endpoints n h3).1
  have h1 : keep.getD (n-1) false = true :=
    dpLoop_keep_mono ops points eps (n-1) _ _ _ (dpKeep0_endpoints n h3).2
  have hsplit : List.range n = List.range (n-1) ++ [n-1] := by
    nth_rewrite 1 [show n = (n-1) + 1 from by omega]
    exact List.range_succ (n - 1)
  rw [hsplit, List.filterMap_append]
  rw [List.length_append]
  have hL : 1 ≤ (List.filterMap (fun i =>
      if keep.getD i false = true then some (points.getD i ⟨0, 0⟩) else none)
      (List.range (n-1))).length := by
    have hmem : points.getD 0 ⟨0, 0⟩ ∈ List.filterMap (fun i =>
        if keep.getD i false = true then some (points.getD i ⟨0, 0⟩) else none)
        (List.range (n-1)) := by
      rw [List.mem_filterMap]
      exact ⟨0, List.mem_range.mpr (by omega), by rw [if_pos h0]⟩
    exact List.length_pos.mpr (List.ne_nil_of_mem hmem)
  have hR : (List.filterMap (fun i =>
      if keep.getD i false = true then some (points.getD i ⟨0, 0⟩) else none)
      [n-1]).length = 1 := by
    simp only [List.filterMap_cons, List.filterMap_nil, h1, if_pos]
    simp [h1]
  omega

/-- `removeColinear` never shrinks a list below 2 elements. -/
theorem removeColinear_length_ge_two (ops : MathOps) (points : List Pt)
    (tol : ℚ) (h2 : 2 ≤ points.length) :
    2 ≤ (removeColinear ops points tol).length := by
  simp only [removeColinear]
  split
  · exact h2
  · split
    · next h3 => omega
    · exact h2

/-- `chainPush` yields a chain of at least 2 points whenever the chain was
nonempty. -/
theorem chainPush_length_ge_two (p : Pt) :
    ∀ (acc : List Pt), 1 ≤ acc.length → 2 ≤ (chainPush acc p).length := by
  intro acc
  induction acc with
  | nil => intro h; simp at h
  | cons a rest ih =>
      intro _
      match rest with
      | [] => simp [chainPush]
      | b :: rest' =>
          rw [chainPush]
          split
          · exact ih (by simp)
          · simp

/-- `buildChain` preserves a chain of at least 2 points. -/
theorem buildChain_length_ge_two :
    ∀ (l : List Pt) (acc : List Pt), 2 ≤ acc.length →
      2 ≤ (buildChain acc l).length := by
  intro l
  induction l with
  | nil => intro acc h; simpa [buildChain] using h
  | cons p rest ih =>
      intro acc h
      rw [buildChain]
      exact ih _ (chainPush_length_ge_two p acc (by omega))

/-- The full chain over a list of at least 2 points has at least 2 points. -/
theorem buildChain_nil_length_ge_two (l : List Pt) (h2 : 2 ≤ l.length) :
    2 ≤ (buildChain [] l).length := by
  match l with
  | [] => simp at h2
  | [a] => simp at h2
  | a :: b :: rest =>
      rw [buildChain, buildChain]
      show 2 ≤ (buildChain (chainPush [a] b) rest).length
      exact buildChain_length_ge_two rest _ (by simp [chainPush])

/-- The convex hull of at least 2 points has at least 2 vertices. -/
theorem convexHull_length_ge_two (points : List Pt) (h2 : 2 ≤ points.length) :
    2 ≤ (convexHull points).length := by
  unfold convexHull
  rw [if_neg (by omega)]
  have hsort : 2 ≤ (points.insertionSort lexLe).length := by
    rw [List.length_insertionSort]; exact h2
  have hlow := buildChain_nil_length_ge_two _ hsort
  have hup := buildChain_nil_length_ge_two ((points.insertionSort lexLe).reverse)
    (by rw [List.length_reverse]; exact hsort)
  rw [List.length_append, List.length_reverse, List.length_reverse,
    List.length_tail, List.length_tail]
  omega

/-- The filtered hull of a component with a contour of at least 6 points has
at least 2 vertices. -/
theorem hullCleanOf_length_ge_two (ops : MathOps) (c : Component)
    (h6 : 6 ≤ c.contour.length) :
    2 ≤ (hullCleanOf ops c).length := by
  unfold hullCleanOf
  exact removeColinear_length_ge_two ops _ _
    (convexHull_length_ge_two _
      (removeColinear_length_ge_two ops _ _
        (douglasPeucker_length_ge_two ops _ _ (by omega))))

/-- C2 (amended): every record returned by `detectShapes` has at least **2**
vertices.  (The spec's bound of 3 fails: a degenerate collinear component
yields a 2-vertex hull, see the counterexample.) -/
theorem shapes_vertices_ge_two (ops : MathOps) (cfg : DetectorConfig)
    (img : ImageData) (t0 t1 : ℚ) :
    ∀ s ∈ (detectShapes ops cfg img t0 t1).shapes, 2 ≤ s.vertices.length := by
  intro s hs
  simp only [detectShapes, List.mem_map, List.mem_filter] at hs
  obtain ⟨c, ⟨_, hc6⟩, rfl⟩ := hs
  have : (analyzeComponent ops c).vertices = hullCleanOf ops c := rfl
  rw [this]
  exact hullCleanOf_length_ge_two ops c (by simpa using hc6)

/-- C2 counterexample: the 28×1 all-black bar is a well-formed image whose
single returned record has only 2 vertices — the invariant "vertex count ≥ 3"
is violated by the pipeline. -/
theorem shapes_vertices_counterexample :
    ∃ s ∈ (detectShapes qOps defaultConfig barImage 0 0).shapes,
      s.vertices.length < 3 :=
  ⟨barRecord, barRecord_mem, by decide⟩

/-- C2 witness for the amended bound. -/
theorem shapes_vertices_ge_two_witness :
    ∃ s ∈ (detectShapes qOps defaultConfig barImage 0 0).shapes,
      2 ≤ s.vertices.length :=
  ⟨barRecord, barRecord_mem,
    shapes_vertices_ge_two qOps defaultConfig barImage 0 0 barRecord barRecord_mem⟩

/-- C1 witness: the malformed 2×2 image with a 4-byte buffer satisfies the
malformedness predicate, and the amended theorem's conclusions evaluate on
it. -/
theorem detectShapes_no_validation_witness :
    inputMalformed malImage.width malImage.height malImage.data.length = true ∧
      (detectShapes qOps defaultConfig malImage 0 0).processingTime = 0 - 0 ∧
      maskAt malImage defaultConfig.threshold 1 = false :=
  ⟨by decide,
    (detectShapes_no_validation qOps defaultConfig malImage 0 0 (by decide)).1,
    (detectShapes_no_validation qOps defaultConfig malImage 0 0 (by decide)).2.1
      1 (by decide)⟩

/-! ## C4 — the classification policy -/

/-- A fold of `min` from a start below a fold of `max`'s start stays below. -/
theorem foldl_min_le_foldl_max (f : Pt → ℤ) :
    ∀ (r : List Pt) (m M : ℤ), m ≤ M →
      r.foldl (fun a q => min a (f q)) m ≤ r.foldl (fun a q => max a (f q)) M := by
  intro r
  induction r with
  | nil => intro m M h; simpa using h
  | cons p t ih =>
      intro m M h
      simp only [List.foldl_cons]
      exact ih _ _ ((min_le_left _ _).trans (h.trans (le_max_left _ _)))

/-- The bounding box of a point list is well-ordered in `x`. -/
theorem foldMinX_le_foldMaxX (l : List Pt) : foldMinX l ≤ foldMaxX l := by
  match l with
  | [] => exact le_refl 0
  | p :: r => exact foldl_min_le_foldl_max Pt.x r p.x p.x le_rfl

/-- The bounding box of a point list is well-ordered in `y`. -/
theorem foldMinY_le_foldMaxY (l : List Pt) : foldMinY l ≤ foldMaxY l := by
  match l with
  | [] => exact le_refl 0
  | p :: r => exact foldl_min_le_foldl_max Pt.y r p.y p.y le_rfl

/-- The source's `|| 1` on a nonnegative extent equals the spec's
"floored to at least 1". -/
theorem ite_zero_eq_max_one (w : ℤ) (hw : 0 ≤ w) :
    (if w = 0 then 1 else w) = max 1 w := by
  rcases eq_or_ne w 0 with rfl | h
  · simp
  · rw [if_neg h, max_eq_right (by omega)]

/-- The classification decision of the source coincides with the spec's
decision policy (same fixed order, same aspect ratio with extents floored to
≥ 1, same circularity threshold), for every hull and every nonnegative
perimeter.  For `perimeter = 0` the source's explicit `circularity = 0`
guard and the spec formula (whose division by zero is 0 in this embedding)
also agree. -/
theorem classifyShape_eq_spec (hull : List Pt) (area : ℕ) (perim : ℚ)
    (hp : 0 ≤ perim) :
    classifyShape hull
        (if perim > 0 then (4 * piQ * (area : ℚ)) / (perim * perim) else 0)
      = specClassify hull area perim := by
  unfold classifyShape specClassify
  by_cases h3 : hull.length = 3
  · simp [h3]
  · by_cases h4 : hull.length = 4
    · simp only [h3, if_false, h4, if_true]
      have hx := foldMinX_le_foldMaxX hull
      have hy := foldMinY_le_foldMaxY hull
      rw [ite_zero_eq_max_one _ (by omega), ite_zero_eq_max_one _ (by omega)]
    · by_cases hp0 : perim > 0
      · simp [h3, h4, hp0]
      · have hz : perim = 0 := le_antisymm (not_lt.mp hp0) hp
        simp [h3, h4, hp0, hz]

/-- C4: the `type` of every analysed component is exactly the spec's decision
policy applied to the filtered hull polygon, the raw flood-filled area, and
the perimeter of the traced boundary path before simplification. -/
theorem analyze_type_eq_spec (ops : MathOps) (c : Component)
    (hp : 0 ≤ polygonPerimeter ops c.contour) :
    (analyzeComponent ops c).type
      = specClassify (hullCleanOf ops c) c.area (polygonPerimeter ops c.contour) := by
  have h : (analyzeComponent ops c).type
      = classifyShape (hullCleanOf ops c) (circularityOf ops c) := by
    simp only [analyzeComponent]
  rw [h]
  have hcirc : circularityOf ops c
      = (if polygonPerimeter ops c.contour > 0 then
          (4 * piQ * (c.area : ℚ)) /
            (polygonPerimeter ops c.contour * polygonPerimeter ops c.contour)
        else 0) := rfl
  rw [hcirc]
  exact classifyShape_eq_spec (hullCleanOf ops c) c.area
    (polygonPerimeter ops c.contour) hp

/-- A concrete component (a hexagonal contour) for the C4 witness. -/
def hexComponent : Component :=
  ⟨[], [⟨0, 0⟩, ⟨4, 0⟩, ⟨8, 0⟩, ⟨8, 4⟩, ⟨4, 8⟩, ⟨0, 4⟩], 30, ⟨0, 0, 9, 9⟩⟩

set_option maxRecDepth 100000 in
set_option maxHeartbeats 1000000 in
unseal Rat.add Rat.mul Rat.inv Rat.sub in
/-- C4 witness: the hexagonal component has nonnegative perimeter and the
theorem's equality evaluates on it. -/
theorem analyze_type_eq_spec_witness :
    0 ≤ polygonPerimeter qOps hexComponent.contour ∧
      (analyzeComponent qOps hexComponent).type
        = specClassify (hullCleanOf qOps hexComponent) hexComponent.area
            (polygonPerimeter qOps hexComponent.contour) :=
  ⟨by decide, analyze_type_eq_spec qOps hexComponent (by decide)⟩

/-! ## C6 — Douglas-Peucker at the two epsilon extremes -/

/-- `getD` agrees with `getElem` in range. -/
theorem getD_eq_getElem_pt (l : List Pt) (i : ℕ) (h : i < l.length) :
    l.getD i ⟨0, 0⟩ = l[i] := by
  rw [List.getD_eq_getElem?_getD, List.getElem?_eq_getElem h]
  rfl

/-- In-range `getD` values of a `Nodup` list at distinct indices differ. -/
theorem getD_nodup_ne (l : List Pt) (hnd : l.Nodup) (i j : ℕ)
    (hi : i < l.length) (hj : j < l.length) (hij : i ≠ j) :
    l.getD i ⟨0, 0⟩ ≠ l.getD j ⟨0, 0⟩ := by
  rw [getD_eq_getElem_pt l i hi, getD_eq_getElem_pt l j hj]
  intro h
  exact hij (hnd.getElem_inj_iff.mp h)

/-- In-range `getD` values are members. -/
theorem getD_mem_pt (l : List Pt) (i : ℕ) (h : i < l.length) :
    l.getD i ⟨0, 0⟩ ∈ l := by
  rw [getD_eq_getElem_pt l i h]
  exact List.getElem_mem h

/-- Reading a list back by indices reproduces it. -/
theorem map_getD_range (l : List Pt) :
    (List.range l.length).map (fun i => l.getD i ⟨0, 0⟩) = l := by
  induction l with
  | nil => simp
  | cons a t ih =>
      rw [List.length_cons, List.range_succ_eq_map, List.map_cons,
        List.map_map]
      have htail : (List.range t.length).map
          ((fun i => (a :: t).getD i ⟨0, 0⟩) ∘ Nat.succ) = t := by
        have hcongr : (List.range t.length).map
            ((fun i => (a :: t).getD i ⟨0, 0⟩) ∘ Nat.succ)
            = (List.range t.length).map (fun i => t.getD i ⟨0, 0⟩) :=
          List.map_congr_left (fun i _ => rfl)
        rw [hcongr, ih]
      rw [htail]
      rfl

/-- The initial Douglas-Peucker markers, read back pointwise. -/
theorem keep0_getD (n i : ℕ) (h : i < n) :
    ((List.range n).map (fun j => j == 0 || j == n - 1)).getD i false
      = (i == 0 || i == n - 1) := by
  rw [List.getD_eq_getElem?_getD, List.getElem?_map, List.getElem?_range h]
  rfl

/-- The perpendicular distance of a point from the line through two distinct
points is positive whenever the three points are not collinear: its squared
value is `cross² / |b-a|²`, and the square root of a positive rational is
positive by hypothesis on the math bundle. -/
theorem perpendicularDistance_pos (ops : MathOps)
    (hs : ∀ q : ℚ, 0 < q → 0 < ops.sqrt q) (pt a b : Pt)
    (hab : a ≠ b) (hcr : cross a b pt ≠ 0) :
    0 < perpendicularDistance ops pt a b := by
  have hd : ¬ (b.x - a.x = 0 ∧ b.y - a.y = 0) := by
    rintro ⟨h1, h2⟩
    apply hab
    have hx : a.x = b.x := by omega
    have hy : a.y = b.y := by omega
    cases a; cases b
    simp_all
  simp only [perpendicularDistance, hypotQ, if_neg hd]
  apply hs
  have hDZ : (0 : ℤ) < (b.x - a.x) * (b.x - a.x) + (b.y - a.y) * (b.y - a.y) := by
    rcases not_and_or.mp hd with h | h
    · nlinarith [mul_self_pos.mpr h, mul_self_nonneg (b.y - a.y)]
    · nlinarith [mul_self_pos.mpr h, mul_self_nonneg (b.x - a.x)]
  have hD : (0 : ℚ)
      < (((b.x - a.x) * (b.x - a.x) + (b.y - a.y) * (b.y - a.y) : ℤ) : ℚ) := by
    exact_mod_cast hDZ
  have hDne : (((b.x - a.x) * (b.x - a.x) + (b.y - a.y) * (b.y - a.y) : ℤ) : ℚ) ≠ 0 :=
    ne_of_gt hD
  have hcrQ : ((cross a b pt : ℤ) : ℚ) ≠ 0 := Int.cast_ne_zero.mpr hcr
  have hnum : (0 : ℚ) < ((cross a b pt : ℤ) : ℚ) ^ 2 := by positivity
  convert div_pos hnum hD using 1
  unfold cross at *
  push_cast
  push_cast at hDne
  field_simp
  ring

/-- Setting an in-range position to `true` reads back `true`. -/
theorem getD_set_self_true (l : List Bool) (m : ℕ) (hm : m < l.length) :
    (l.set m true).getD m false = true := by
  rw [List.getD_eq_getElem?_getD, List.getElem?_set_self (by simpa using hm)]
  rfl

/-- The running maximum of the interior scan never exceeds a bound dominating
every distance. -/
theorem foldl_argmax_le (f : ℕ → ℚ) (eps : ℚ) :
    ∀ (l : List ℕ) (st : ℚ × Option ℕ), st.1 ≤ eps → (∀ k ∈ l, f k ≤ eps) →
      (l.foldl (fun st k =>
        let d := f k
        if d > st.1 then (d, some k) else st) st).1 ≤ eps := by
  intro l
  induction l with
  | nil => intro st h _; simpa using h
  | cons k rest ih =>
      intro st hst hb
      simp only [List.foldl_cons]
      split
      · exact ih _ (hb k (List.mem_cons_self k rest)) (fun x hx => hb x (List.mem_cons_of_mem _ hx))
      · exact ih _ hst (fun x hx => hb x (List.mem_cons_of_mem _ hx))

/-- A "good" interior-scan state: positive running maximum, index in the open
range. -/
def scanGood (lo hi : ℕ) (st : ℚ × Option ℕ) : Prop :=
  0 < st.1 ∧ ∃ m, st.2 = some m ∧ lo < m ∧ m < hi

/-- Goodness of the scan state is preserved by the fold. -/
theorem foldl_argmax_keep (f : ℕ → ℚ) (lo hi : ℕ) :
    ∀ (l : List ℕ) (st : ℚ × Option ℕ), scanGood lo hi st →
      (∀ k ∈ l, lo < k ∧ k < hi) →
      scanGood lo hi (l.foldl (fun st k =>
        let d := f k
        if d > st.1 then (d, some k) else st) st) := by
  intro l
  induction l with
  | nil => intro st h _; simpa using h
  | cons k rest ih =>
      intro st hst hb
      simp only [List.foldl_cons]
      split
      · next hgt =>
          refine ih _ ⟨lt_trans hst.1 hgt, k, rfl, (hb k (List.mem_cons_self k rest)).1,
            (hb k (List.mem_cons_self k rest)).2⟩ (fun x hx => hb x (List.mem_cons_of_mem _ hx))
      · exact ih _ hst (fun x hx => hb x (List.mem_cons_of_mem _ hx))

/-- Starting from `(0, none)`, a nonempty scan whose distances are all
positive ends in a good state. -/
theorem foldl_argmax_start (f : ℕ → ℚ) (lo hi : ℕ) (l : List ℕ)
    (hne : l ≠ []) (hb : ∀ k ∈ l, lo < k ∧ k < hi ∧ 0 < f k) :
    scanGood lo hi (l.foldl (fun st k =>
      let d := f k
      if d > st.1 then (d, some k) else st) ((0 : ℚ), (none : Option ℕ))) := by
  match l with
  | [] => exact absurd rfl hne
  | k :: rest =>
      simp only [List.foldl_cons]
      have hk := hb k (List.mem_cons_self k rest)
      rw [if_pos (by simpa using hk.2.2)]
      exact foldl_argmax_keep f lo hi rest _ ⟨hk.2.2, k, rfl, hk.1, hk.2.1⟩
        (fun x hx => ⟨(hb x (List.mem_cons_of_mem _ hx)).1,
          (hb x (List.mem_cons_of_mem _ hx)).2.1⟩)

/-- Total measure of a Douglas-Peucker range stack: each range `(i,j)`
contributes `2(j-i)-1`; it strictly decreases at every loop iteration. -/
def rangesMeasure : List (ℕ × ℕ) → ℕ
  | [] => 0
  | (i, j) :: rest => (2 * (j - i) - 1) + rangesMeasure rest

/-- With `epsilon = 0` and all interior perpendicular distances positive, the
Douglas-Peucker loop marks every index kept (given enough fuel and the
covering invariant). -/
theorem dpLoop_all_kept (ops : MathOps) (points : List Pt) (n : ℕ)
    (hn : n = points.length)
    (hd : ∀ i j k, i < k → k < j → j ≤ n - 1 →
      0 < perpendicularDistance ops (points.getD k ⟨0, 0⟩)
        (points.getD i ⟨0, 0⟩) (points.getD j ⟨0, 0⟩)) :
    ∀ (fuel : ℕ) (st : List (ℕ × ℕ)) (keep : List Bool),
      rangesMeasure st < fuel → keep.length = n →
      (∀ p ∈ st, p.1 < p.2 ∧ p.2 ≤ n - 1) →
      (∀ k, k < n → keep.getD k false = true ∨ ∃ p ∈ st, p.1 < k ∧ k < p.2) →
      ∀ k, k < n → (dpLoop ops points 0 fuel st keep).getD k false = true := by
  intro fuel
  induction fuel with
  | zero => intro st keep hm; omega
  | succ fuel ih =>
      intro st keep hm hlen hb hcov k hk
      match st with
      | [] =>
          rw [dpLoop]
          rcases hcov k hk with h | ⟨p, hp, _⟩
          · exact h
          · simp at hp
      | (i, j) :: rest =>
          have hij := hb (i, j) (List.mem_cons_self _ _)
          simp only at hij
          rw [dpLoop]
          by_cases hji : j = i + 1
          · have hempty : dpScan ops points i j = ((0 : ℚ), (none : Option ℕ)) := by
              subst hji
              unfold dpScan
              simp
            rw [hempty]
            dsimp only
            rw [if_neg (by norm_num)]
            refine ih rest keep ?_ hlen (fun p hp => hb p (List.mem_cons_of_mem _ hp)) ?_ k hk
            · have hms0 : rangesMeasure ((i, j) :: rest)
                  = (2 * (j - i) - 1) + rangesMeasure rest := rfl
              rw [hms0] at hm
              omega
            · intro k' hk'
              rcases hcov k' hk' with h | ⟨p, hp, hp1, hp2⟩
              · exact Or.inl h
              · rcases List.mem_cons.mp hp with rfl | hp'
                · exfalso; simp only at hp1 hp2; omega
                · exact Or.inr ⟨p, hp', hp1, hp2⟩
          · have hlt : i + 1 < j := by omega
            have hgood : scanGood i j (dpScan ops points i j) := by
              unfold dpScan
              apply foldl_argmax_start
              · simp only [ne_eq, List.range'_eq_nil]
                omega
              · intro x hx
                rw [List.mem_range'_1] at hx
                have h1 : i < x := by omega
                have h2 : x < j := by omega
                exact ⟨h1, h2, hd i j x h1 h2 hij.2⟩
            rcases hscan : dpScan ops points i j with ⟨maxDist, index⟩
            rw [hscan] at hgood
            obtain ⟨hmd, m, hidx, him, hmj⟩ := hgood
            dsimp only
            simp only at hmd hidx
            rw [if_pos hmd]
            subst hidx
            have hmn : m < n := by omega
            refine ih ((m, j) :: (i, m) :: rest) (keep.set m true) ?_ ?_ ?_ ?_ k hk
            · have hms : rangesMeasure ((m, j) :: (i, m) :: rest)
                  = (2 * (j - m) - 1) + ((2 * (m - i) - 1) + rangesMeasure rest) := rfl
              have hms0 : rangesMeasure ((i, j) :: rest)
                  = (2 * (j - i) - 1) + rangesMeasure rest := rfl
              rw [hms]
              rw [hms0] at hm
              omega
            · rw [List.length_set]; exact hlen
            · intro p hp
              rcases List.mem_cons.mp hp with rfl | hp'
              · exact ⟨hmj, hij.2⟩
              · rcases List.mem_cons.mp hp' with rfl | hp''
                · exact ⟨him, by omega⟩
                · exact hb p (List.mem_cons_of_mem _ hp'')
            · intro k' hk'
              rcases hcov k' hk' with h | ⟨p, hp, hp1, hp2⟩
              · exact Or.inl (getD_set_true keep m k' h)
              · rcases List.mem_cons.mp hp with rfl | hp'
                · simp only at hp1 hp2
                  rcases Nat.lt_trichotomy k' m with h | rfl | h
                  · exact Or.inr ⟨(i, m), by simp, hp1, h⟩
                  · exact Or.inl (getD_set_self_true keep k' (hlen ▸ hk'))
                  · exact Or.inr ⟨(m, j), by simp, h, hp2⟩
                · exact Or.inr ⟨p, List.mem_cons_of_mem _ (List.mem_cons_of_mem _ hp'), hp1, hp2⟩

/-- With every index kept, the final filter reproduces the whole list. -/
theorem filterMap_all_true (points : List Pt) (keep : List Bool)
    (h : ∀ i, i < points.length → keep.getD i false = true) :
    (List.range points.length).filterMap (fun i =>
      if keep.getD i false then some (points.getD i ⟨0, 0⟩) else none)
      = points := by
  have hgen : ∀ l : List ℕ, (∀ i ∈ l, i < points.length) →
      l.filterMap (fun i =>
        if keep.getD i false then some (points.getD i ⟨0, 0⟩) else none)
      = l.map (fun i => points.getD i ⟨0, 0⟩) := by
    intro l
    induction l with
    | nil => simp
    | cons a rest ih =>
        intro hmem
        rw [List.filterMap_cons, List.map_cons]
        rw [if_pos (h a (hmem a (List.mem_cons_self _ _)))]
        rw [ih (fun i hi => hmem i (List.mem_cons_of_mem _ hi))]
  rw [hgen (List.range points.length) (fun i hi => List.mem_range.mp hi)]
  exact map_getD_range points

/-- With an arbitrary marker list reading back as "endpoint markers", the
final filter yields exactly the two endpoints. -/
theorem filterMap_keep0_aux (points : List Pt) (keep0 : List Bool) (n : ℕ)
    (hn : n = points.length) (h3 : 3 ≤ n)
    (hk : ∀ i, i < n → keep0.getD i false = (i == 0 || i == n - 1)) :
    (List.range n).filterMap (fun i =>
      if keep0.getD i false then some (points.getD i ⟨0, 0⟩) else none)
      = [points.getD 0 ⟨0, 0⟩, points.getD (n - 1) ⟨0, 0⟩] := by
  have hsplit1 : List.range n = List.range (n - 1) ++ [n - 1] := by
    nth_rewrite 1 [show n = (n - 1) + 1 from by omega]
    exact List.range_succ (n - 1)
  have hsplit2 : List.range (n - 1) = 0 :: (List.range (n - 2)).map Nat.succ := by
    nth_rewrite 1 [show n - 1 = (n - 2) + 1 from by omega]
    exact List.range_succ_eq_map (n - 2)
  rw [hsplit1, List.filterMap_append, hsplit2, List.filterMap_cons,
    List.filterMap_map]
  have h0 : keep0.getD 0 false = true := by
    rw [hk 0 (by omega)]
    simp
  rw [h0]
  have hmid : (List.range (n - 2)).filterMap
      ((fun i => if keep0.getD i false
        then some (points.getD i ⟨0, 0⟩) else none) ∘ Nat.succ) = [] := by
    rw [List.filterMap_eq_nil_iff]
    intro a ha
    rw [List.mem_range] at ha
    have hlt : a + 1 < n := by omega
    show (if keep0.getD (a+1) false
      then some (points.getD (a+1) ⟨0, 0⟩) else none) = none
    rw [hk (a+1) hlt]
    have hne1 : ((a+1) == 0) = false := by simp
    have hne2 : ((a+1) == n - 1) = false := by
      simp only [beq_eq_false_iff_ne, ne_eq]
      omega
    rw [hne1, hne2]
    simp
  rw [hmid]
  have hlast : [n-1].filterMap (fun i =>
      if keep0.getD i false
      then some (points.getD i ⟨0, 0⟩) else none)
      = [points.getD (n-1) ⟨0, 0⟩] := by
    rw [List.filterMap_cons]
    rw [hk (n-1) (by omega)]
    have h1 : ((n-1) == n - 1) = true := by simp
    rw [h1]
    simp
  rw [hlast]
  simp

/-- With only the endpoint markers set, the final filter yields exactly the
two endpoints. -/
theorem filterMap_keep0 (points : List Pt) (h3 : 3 ≤ points.length) :
    (List.range points.length).filterMap (fun i =>
      if ((List.range points.length).map
        (fun j => j == 0 || j == points.length - 1)).getD i false
      then some (points.getD i ⟨0, 0⟩) else none)
      = [points.getD 0 ⟨0, 0⟩, points.getD (points.length - 1) ⟨0, 0⟩] :=
  filterMap_keep0_aux points _ points.length rfl h3
    (fun i hi => keep0_getD points.length i hi)

/-- `natSqrtLin` of a positive number is at least 1. -/
theorem natSqrtLin_pos (n : ℕ) (hn : 1 ≤ n) : 1 ≤ natSqrtLin n := by
  unfold natSqrtLin
  have hsplit : List.range (n + 1) = 0 :: 1 :: List.range' 2 (n - 1) := by
    rw [List.range_eq_range']
    rw [show n + 1 = (n - 1) + 1 + 1 from by omega]
    rw [List.range'_succ, List.range'_succ]
  rw [hsplit]
  simp only [List.foldl_cons]
  rw [show (if 1 * 1 ≤ n then 1 else if 0 * 0 ≤ n then 0 else 0) = 1 from by
    rw [if_pos (show 1 * 1 ≤ n by omega)]]
  have hinv : ∀ (l : List ℕ) (acc : ℕ), 1 ≤ acc → (∀ k ∈ l, 1 ≤ k) →
      1 ≤ l.foldl (fun acc k => if k * k ≤ n then k else acc) acc := by
    intro l
    induction l with
    | nil => intro acc h _; simpa using h
    | cons a rest ih =>
        intro acc h hb
        simp only [List.foldl_cons]
        split
        · exact ih _ (hb a (List.mem_cons_self _ _))
            (fun x hx => hb x (List.mem_cons_of_mem _ hx))
        · exact ih _ h (fun x hx => hb x (List.mem_cons_of_mem _ hx))
  apply hinv _ _ le_rfl
  intro k hk
  rw [List.mem_range'_1] at hk
  omega

/-- The square root stand-in `ratSqrt` is positive on positive arguments
(so `qOps` satisfies the positivity hypothesis of the main theorems). -/
theorem ratSqrt_pos (q : ℚ) (hq : 0 < q) : 0 < ratSqrt q := by
  unfold ratSqrt
  have hnum : 1 ≤ q.num := by
    by_contra h
    push_neg at h
    have : q.num ≤ 0 := by omega
    rw [← Rat.num_pos] at hq
    omega
  have harg : 1 ≤ q.num.toNat * q.den := by
    have h1 : 1 ≤ q.num.toNat := by omega
    have h2 : 1 ≤ q.den := q.pos
    exact Nat.one_le_iff_ne_zero.mpr (by positivity)
  have hlin := natSqrtLin_pos _ harg
  have hc1 : (1 : ℚ) ≤ (natSqrtLin (q.num.toNat * q.den) : ℚ) := by
    exact_mod_cast hlin
  have hden : (0 : ℚ) < (q.den : ℚ) := by
    exact_mod_cast q.pos
  exact div_pos (by linarith) hden

/-- C6 (amended): Douglas-Peucker at the two epsilon extremes, for any point
sequence of length at least 3.  (1) With `ε = 0` the original sequence is
returned **when the points are distinct and no three are collinear** (the
source drops interior points lying exactly on a chord, see the
counterexample); the square-root hypothesis is satisfied by `Math.sqrt`.
(2) With any `ε ≥ 0` at least as large as every perpendicular distance to the
endpoint chord, exactly the two endpoints are returned. -/
theorem douglasPeucker_extremes (ops : MathOps) (points : List Pt)
    (h3 : 3 ≤ points.length) :
    ((∀ q : ℚ, 0 < q → 0 < ops.sqrt q) → points.Nodup →
      (∀ a ∈ points, ∀ b ∈ points, ∀ c ∈ points,
        a ≠ b → a ≠ c → b ≠ c → cross a b c ≠ 0) →
      douglasPeucker ops points 0 = points) ∧
    (∀ eps : ℚ, 0 ≤ eps →
      (∀ k, 0 < k → k < points.length - 1 →
        perpendicularDistance ops (points.getD k ⟨0, 0⟩) (points.getD 0 ⟨0, 0⟩)
          (points.getD (points.length - 1) ⟨0, 0⟩) ≤ eps) →
      douglasPeucker ops points eps
        = [points.getD 0 ⟨0, 0⟩, points.getD (points.length - 1) ⟨0, 0⟩]) := by
  constructor
  · intro hs hnd hcol
    simp only [douglasPeucker]
    rw [if_neg (by omega)]
    have hd : ∀ i j k, i < k → k < j → j ≤ points.length - 1 →
        0 < perpendicularDistance ops (points.getD k ⟨0, 0⟩)
          (points.getD i ⟨0, 0⟩) (points.getD j ⟨0, 0⟩) := by
      intro i j k hik hkj hj
      have hi : i < points.length := by omega
      have hk : k < points.length := by omega
      have hj' : j < points.length := by omega
      apply perpendicularDistance_pos ops hs
      · exact getD_nodup_ne points hnd i j hi hj' (by omega)
      · exact hcol _ (getD_mem_pt points i hi) _ (getD_mem_pt points j hj')
          _ (getD_mem_pt points k hk)
          (getD_nodup_ne points hnd i j hi hj' (by omega))
          (getD_nodup_ne points hnd i k hi hk (by omega))
          (getD_nodup_ne points hnd j k hj' hk (by omega))
    have hall := dpLoop_all_kept ops points points.length rfl hd
      (2 * points.length + 2) [(0, points.length - 1)]
      ((List.range points.length).map (fun i => i == 0 || i == points.length - 1))
      (by
        have hms : rangesMeasure [(0, points.length - 1)]
            = 2 * (points.length - 1 - 0) - 1 + 0 := rfl
        omega)
      (by rw [List.length_map, List.length_range])
      (by
        intro p hp
        rcases List.mem_cons.mp hp with rfl | h
        · exact ⟨by omega, le_rfl⟩
        · simp at h)
      (by
        intro k hk
        by_cases h0 : k = 0
        · left
          subst h0
          rw [keep0_getD _ _ hk]
          simp
        · by_cases h1 : k = points.length - 1
          · left
            subst h1
            rw [keep0_getD _ _ hk]
            simp
          · right
            exact ⟨(0, points.length - 1), by simp, by omega, by omega⟩)
    exact filterMap_all_true points _ (fun i hi => hall i hi)
  · intro eps h0 hdist
    simp only [douglasPeucker]
    rw [if_neg (by omega)]
    rw [show 2 * points.length + 2 = (2 * points.length + 1) + 1 from by omega]
    rw [dpLoop]
    have hle : ¬ ((dpScan ops points 0 (points.length - 1)).1 > eps) := by
      rw [not_lt]
      unfold dpScan
      apply foldl_argmax_le
      · exact h0
      · intro k hkmem
        rw [List.mem_range'_1] at hkmem
        exact hdist k (by omega) (by omega)
    rcases hscan : dpScan ops points 0 (points.length - 1) with ⟨maxDist, index⟩
    rw [hscan] at hle
    dsimp only
    rw [if_neg hle]
    rw [dpLoop]
    exact filterMap_keep0 points h3

set_option maxRecDepth 100000 in
set_option maxHeartbeats 1000000 in
unseal Rat.add Rat.mul Rat.inv Rat.sub in
/-- C6 counterexample: on the collinear triple `(0,0), (1,0), (2,0)` the
source's Douglas-Peucker with `ε = 0` drops the interior point (its
perpendicular distance is exactly 0, and the split condition is the strict
`maxDist > epsilon`), so the original sequence is **not** returned. -/
theorem douglasPeucker_eps0_counterexample :
    douglasPeucker qOps [⟨0, 0⟩, ⟨1, 0⟩, ⟨2, 0⟩] 0 ≠ [⟨0, 0⟩, ⟨1, 0⟩, ⟨2, 0⟩] ∧
      douglasPeucker qOps [⟨0, 0⟩, ⟨1, 0⟩, ⟨2, 0⟩] 0 = [⟨0, 0⟩, ⟨2, 0⟩] :=
  ⟨by decide, by decide⟩

set_option maxRecDepth 100000 in
set_option maxHeartbeats 1000000 in
unseal Rat.add Rat.mul Rat.inv Rat.sub in
/-- C6 witness: on the non-collinear triple `(0,0), (1,3), (2,0)` the theorem
applies: `ε = 0` preserves the sequence, and `ε = 100` (larger than the only
perpendicular distance) leaves the two endpoints. -/
theorem douglasPeucker_extremes_witness :
    douglasPeucker qOps [⟨0, 0⟩, ⟨1, 3⟩, ⟨2, 0⟩] 0 = [⟨0, 0⟩, ⟨1, 3⟩, ⟨2, 0⟩] ∧
      douglasPeucker qOps [⟨0, 0⟩, ⟨1, 3⟩, ⟨2, 0⟩] 100
        = [([⟨0, 0⟩, ⟨1, 3⟩, ⟨2, 0⟩] : List Pt).getD 0 ⟨0, 0⟩,
           ([⟨0, 0⟩, ⟨1, 3⟩, ⟨2, 0⟩] : List Pt).getD
             (([⟨0, 0⟩, ⟨1, 3⟩, ⟨2, 0⟩] : List Pt).length - 1) ⟨0, 0⟩] :=
  ⟨(douglasPeucker_extremes qOps [⟨0, 0⟩, ⟨1, 3⟩, ⟨2, 0⟩] (by decide)).1
      (fun q hq => ratSqrt_pos q hq) (by decide) (by decide),
    (douglasPeucker_extremes qOps [⟨0, 0⟩, ⟨1, 3⟩, ⟨2, 0⟩] (by decide)).2
      100 (by norm_num)
      (by
        intro k h1 h2
        have hk1 : k = 1 := by simp at h2; omega
        subst hk1
        decide)⟩

/-! ## C7 — correctness of the monotone-chain convex hull

The proof follows the classic argument: each chain is built keeping only
strict left turns, every processed point stays weakly left of every chain
edge (established through an invariant maintained across the pop loop), and
the two chains meet at the lexicographic extremes, where strictness of the
seam turns follows from a collinearity sandwich.  All geometry is integer
arithmetic on `cross`. -/

/-- The reversed chain (head = most recently pushed) is lexicographically
descending. -/
def sortedRev : List Pt → Prop
  | x :: y :: rest => lexLe y x ∧ sortedRev (y :: rest)
  | _ => True

/-- Consecutive triples of the reversed chain are strict left turns in push
order. -/
def convexRev : List Pt → Prop
  | x :: y :: z :: rest => 0 < cross z y x ∧ convexRev (y :: z :: rest)
  | _ => True

/-- `q` lies weakly left of every edge of the reversed chain (edges taken in
push order). -/
def edgesRev : List Pt → Pt → Prop
  | x :: y :: rest, q => 0 ≤ cross y x q ∧ edgesRev (y :: rest) q
  | _, _ => True

/-- Strict version of `edgesRev`. -/
def edgesRevS : List Pt → Pt → Prop
  | x :: y :: rest, q => 0 < cross y x q ∧ edgesRevS (y :: rest) q
  | _, _ => True

/-- Swapping the last two arguments negates the turn. -/
theorem cross_swap23 (o a b : Pt) : cross o a b = - cross o b a := by
  unfold cross; ring

/-- Cyclic permutation preserves the turn. -/
theorem cross_cyclic (o a b : Pt) : cross o a b = cross a b o := by
  unfold cross; ring

/-- Degenerate turns. -/
theorem cross_self_right (o a : Pt) : cross o a a = 0 := by
  unfold cross; ring

theorem cross_self_left (o a : Pt) : cross o o a = 0 := by
  unfold cross; ring

theorem cross_self_13 (o a : Pt) : cross o a o = 0 := by
  unfold cross; ring

theorem mul_nonneg_np_np {a b : ℤ} (h1 : a ≤ 0) (h2 : b ≤ 0) : 0 ≤ a * b := by
  calc (0:ℤ) ≤ (-a) * (-b) := mul_nonneg (by omega) (by omega)
    _ = a * b := by ring

/-- The four-point (alternating) identity. -/
theorem cross_four (a b c d : Pt) :
    cross b c d - cross a c d + cross a b d - cross a b c = 0 := by
  unfold cross; ring

/-- The x-weighted Cramer identity used for left-turn propagation. -/
theorem cramer_shift_x (a b c q : Pt) :
    cross a b c * (q.x - b.x)
      = cross b c q * (a.x - b.x) + cross a b q * (c.x - b.x) := by
  unfold cross; ring

/-- Affine interpolation identity (x-weighted): the value of the linear form
`cross A B ·` at `q` against the chord `C₁C₂`. -/
theorem interp_x (A B C₁ C₂ q : Pt) :
    cross A B q * (C₂.x - C₁.x)
      = cross A B C₁ * (C₂.x - q.x) + cross A B C₂ * (q.x - C₁.x)
        + cross C₁ C₂ q * (B.x - A.x) := by
  unfold cross; ring

/-- Affine interpolation identity (y-weighted). -/
theorem interp_y (A B C₁ C₂ q : Pt) :
    cross A B q * (C₂.y - C₁.y)
      = cross A B C₁ * (C₂.y - q.y) + cross A B C₂ * (q.y - C₁.y)
        + cross C₁ C₂ q * (B.y - A.y) := by
  unfold cross; ring

/-- Base-point shift of the linear form `cross x y ·`. -/
theorem cross_base_shift (x y q : Pt) :
    cross x y q = (y.x - x.x) * (q.y - y.y) - (y.y - x.y) * (q.x - y.x) := by
  unfold cross; ring

/-- Two vectors pointing in (weakly) opposite lexicographic directions and
collinear with each other sandwich every vector between their half-planes
onto their common line. -/
theorem cross_opposite_dirs (wx wy zx zy vx vy : ℤ)
    (hcol : wx * zy - wy * zx = 0)
    (hw : 0 < wx ∨ (wx = 0 ∧ 0 < wy))
    (hz : zx < 0 ∨ (zx = 0 ∧ zy < 0))
    (h1 : 0 ≤ wx * vy - wy * vx)
    (h2 : 0 ≤ zx * vy - zy * vx) :
    wx * vy - wy * vx = 0 := by
  rcases hw with hwx | ⟨hwx0, hwy⟩
  · have hzx : zx < 0 := by
      rcases hz with h | ⟨hzx0, hzy⟩
      · exact h
      · exfalso
        have hz0 : wx * zy = 0 := by linear_combination hcol + wy * hzx0
        rcases mul_eq_zero.mp hz0 with h' | h'
        · omega
        · omega
    have hkey : wx * (zx * vy - zy * vx) = zx * (wx * vy - wy * vx) := by
      linear_combination (-vx) * hcol
    have h3 : 0 ≤ zx * (wx * vy - wy * vx) := by
      rw [← hkey]
      exact mul_nonneg (le_of_lt hwx) h2
    have h4 : wx * vy - wy * vx ≤ 0 := by
      by_contra h5
      push_neg at h5
      have := mul_neg_of_neg_of_pos hzx h5
      omega
    omega
  · subst hwx0
    have hzx0 : zx = 0 := by
      rcases hz with h | ⟨hzx0, _⟩
      · exfalso
        have hz0 : wy * zx = 0 := by linear_combination (-1) * hcol
        rcases mul_eq_zero.mp hz0 with h' | h'
        · omega
        · omega
      · exact hzx0
    subst hzx0
    have hzy : zy < 0 := by
      rcases hz with h | ⟨_, hzy⟩
      · omega
      · exact hzy
    have hvx : 0 ≤ vx := by
      by_contra h5
      push_neg at h5
      have hpos : 0 < zy * vx := mul_pos_of_neg_of_neg hzy h5
      have h2' : 0 ≤ 0 * vy - zy * vx := h2
      have h2'' : zy * vx ≤ 0 := by linarith
      linarith
    have hge : 0 ≤ wy * vx := mul_nonneg (le_of_lt hwy) hvx
    have hle : wy * vx ≤ 0 := by
      have h1' : 0 ≤ 0 * vy - wy * vx := h1
      omega
    omega

/-- Parallelism to a common nonzero vector is transitive. -/
theorem parallel_trans (wx wy ux uy vx vy : ℤ)
    (hw : ¬ (wx = 0 ∧ wy = 0))
    (h1 : wx * uy - wy * ux = 0) (h2 : wx * vy - wy * vx = 0) :
    ux * vy - uy * vx = 0 := by
  rcases not_and_or.mp hw with h | h
  · have key : wx * (ux * vy - uy * vx)
        = ux * (wx * vy - wy * vx) - vx * (wx * uy - wy * ux) := by ring
    rw [h1, h2] at key
    simp only [mul_zero, sub_zero] at key
    rcases mul_eq_zero.mp key with h' | h'
    · exact absurd h' h
    · exact h'
  · have key : wy * (ux * vy - uy * vx)
        = uy * (wx * vy - wy * vx) - vy * (wx * uy - wy * ux) := by ring
    rw [h1, h2] at key
    simp only [mul_zero, sub_zero] at key
    rcases mul_eq_zero.mp key with h' | h'
    · exact absurd h' h
    · exact h'

/-- Three points on the line through two distinct points are mutually
collinear. -/
theorem collinear_three (a b u v w : Pt) (hab : ¬ (b.x - a.x = 0 ∧ b.y - a.y = 0))
    (hu : cross a b u = 0) (hv : cross a b v = 0) (hw : cross a b w = 0) :
    cross u v w = 0 := by
  have hu' : (b.x - a.x) * (u.y - a.y) - (b.y - a.y) * (u.x - a.x) = 0 := by
    rw [← hu]; unfold cross; ring
  have hv' : (b.x - a.x) * (v.y - a.y) - (b.y - a.y) * (v.x - a.x) = 0 := by
    rw [← hv]; unfold cross; ring
  have hw' : (b.x - a.x) * (w.y - a.y) - (b.y - a.y) * (w.x - a.x) = 0 := by
    rw [← hw]; unfold cross; ring
  have huv := parallel_trans _ _ _ _ _ _ hab hu' hv'
  have huw := parallel_trans _ _ _ _ _ _ hab hu' hw'
  have hvw := parallel_trans _ _ _ _ _ _ hab hv' hw'
  have : cross u v w
      = ((v.x - a.x) * (w.y - a.y) - (v.y - a.y) * (w.x - a.x))
        - ((u.x - a.x) * (w.y - a.y) - (u.y - a.y) * (w.x - a.x))
        + ((u.x - a.x) * (v.y - a.y) - (u.y - a.y) * (v.x - a.x)) := by
    unfold cross; ring
  rw [this, hvw, huw, huv]
  ring

/-! Lexicographic order utilities. -/

theorem lexLe_refl (a : Pt) : lexLe a a := Or.inr ⟨rfl, le_refl _⟩

theorem lexLe_trans {a b c : Pt} (h1 : lexLe a b) (h2 : lexLe b c) : lexLe a c := by
  unfold lexLe at *
  rcases h1 with h1 | ⟨h1x, h1y⟩ <;> rcases h2 with h2 | ⟨h2x, h2y⟩
  · exact Or.inl (lt_trans h1 h2)
  · exact Or.inl (h2x ▸ h1)
  · exact Or.inl (h1x ▸ h2)
  · exact Or.inr ⟨h1x.trans h2x, le_trans h1y h2y⟩

theorem lexLe_antisymm {a b : Pt} (h1 : lexLe a b) (h2 : lexLe b a) : a = b := by
  unfold lexLe at *
  cases a; cases b
  simp only [Pt.mk.injEq]
  simp only at h1 h2
  omega

theorem lexLe_total (a b : Pt) : lexLe a b ∨ lexLe b a := by
  unfold lexLe
  omega

theorem lexLe_x {a b : Pt} (h : lexLe a b) : a.x ≤ b.x := by
  unfold lexLe at h
  omega

theorem lexLe_y_of_eq_x {a b : Pt} (h : lexLe a b) (hx : a.x = b.x) : a.y ≤ b.y := by
  unfold lexLe at h
  omega

/-- A lexicographically strictly positive difference vector. -/
theorem lex_strict_vec {a b : Pt} (h : lexLe a b) (hne : a ≠ b) :
    0 < b.x - a.x ∨ (b.x - a.x = 0 ∧ 0 < b.y - a.y) := by
  unfold lexLe at h
  rcases h with h | ⟨hx, hy⟩
  · omega
  · rcases eq_or_lt_of_le hy with hy' | hy'
    · exact absurd (by cases a; cases b; simp_all) hne
    · omega

/-! Left-turn propagation along an x-sorted chain. -/

/-- Forward propagation: two successive left turns see the far point left of
the near edge. -/
theorem turn_prop_C1 (a b c d : Pt) (h1 : 0 < cross a b c) (h2 : 0 < cross b c d)
    (hab : a.x ≤ b.x) (hbc : b.x ≤ c.x) (hcd : c.x ≤ d.x) : 0 < cross a b d := by
  by_contra hcon
  push_neg at hcon
  have key := cramer_shift_x a b c d
  have hL : 0 ≤ cross a b c * (d.x - b.x) := mul_nonneg h1.le (by omega)
  have hR1 : cross b c d * (a.x - b.x) ≤ 0 :=
    mul_nonpos_of_nonneg_of_nonpos h2.le (by omega)
  have hR2 : cross a b d * (c.x - b.x) ≤ 0 :=
    mul_nonpos_of_nonpos_of_nonneg hcon (by omega)
  have hz1 : cross a b c * (d.x - b.x) = 0 := by linarith
  have hdb : d.x = b.x := by
    rcases mul_eq_zero.mp hz1 with h' | h'
    · exact absurd h' (ne_of_gt h1)
    · omega
  have hcb : c.x = b.x := by omega
  have hzZ : cross a b d * (c.x - b.x) = 0 := by rw [hcb]; ring
  have hY : cross b c d * (a.x - b.x) = 0 := by linarith
  have hax : a.x = b.x := by
    rcases mul_eq_zero.mp hY with h' | h'
    · exact absurd h' (ne_of_gt h2)
    · omega
  have hzero : cross a b c = 0 := by
    unfold cross
    rw [show b.x = a.x from by omega, show c.x = a.x from by omega]
    ring
  exact absurd hzero (ne_of_gt h1)

/-- Forward propagation, second form: the far edge from the first vertex. -/
theorem turn_prop_C2 (a b c d : Pt) (h1 : 0 < cross a b c) (h2 : 0 < cross b c d)
    (hab : a.x ≤ b.x) (hbc : b.x ≤ c.x) (hcd : c.x ≤ d.x) : 0 < cross a c d := by
  by_contra hcon
  push_neg at hcon
  have key := cramer_shift_x b c d a
  have e1 : cross c d a = cross a c d := ((cross_cyclic a c d)).symm
  have e2 : cross b c a = cross a b c := ((cross_cyclic a b c)).symm
  rw [e1, e2] at key
  have hL : cross b c d * (a.x - c.x) ≤ 0 :=
    mul_nonpos_of_nonneg_of_nonpos h2.le (by omega)
  have hR1 : 0 ≤ cross a c d * (b.x - c.x) :=
    mul_nonneg_np_np hcon (by omega)
  have hR2 : 0 ≤ cross a b c * (d.x - c.x) := mul_nonneg h1.le (by omega)
  have hz1 : cross b c d * (a.x - c.x) = 0 := by linarith
  have hac : a.x = c.x := by
    rcases mul_eq_zero.mp hz1 with h' | h'
    · exact absurd h' (ne_of_gt h2)
    · omega
  have hzZ : cross a c d * (b.x - c.x) = 0 := by
    rw [show b.x = c.x from by omega]; ring
  have hY : cross a b c * (d.x - c.x) = 0 := by linarith
  have hdc : d.x = c.x := by
    rcases mul_eq_zero.mp hY with h' | h'
    · exact absurd h' (ne_of_gt h1)
    · omega
  have hzero : cross b c d = 0 := by
    unfold cross
    rw [show c.x = b.x from by omega, show d.x = b.x from by omega]
    ring
  exact absurd hzero (ne_of_gt h2)

/-! Edge-domination lemmas for the pop loop. -/

/-- After a pop (`cross a b p ≤ 0`), a point dominated by the old top edge
and by the popped candidate edge is dominated by the new candidate edge. -/
theorem pop_edge_dominates (a b p q : Pt)
    (hpop : cross a b p ≤ 0) (hedge : 0 ≤ cross a b q)
    (hprev : 0 ≤ cross b p q) : 0 ≤ cross a p q := by
  have key : cross a p q = cross b p q + cross a b q - cross a b p := by
    unfold cross; ring
  linarith

/-- After a pop, a point lying in the lexicographic window of the popped edge
is dominated by the new candidate edge. -/
theorem pop_window_dominates (a b p q : Pt)
    (hpop : cross a b p ≤ 0) (hedge : 0 ≤ cross a b q)
    (hab : lexLe a b) (haq : lexLe a q) (hqb : lexLe q b)
    (hap : lexLe a p) : 0 ≤ cross a p q := by
  have habx := lexLe_x hab
  have haqx := lexLe_x haq
  have hqbx := lexLe_x hqb
  have hapx := lexLe_x hap
  have hpb : 0 ≤ cross a p b := by
    rw [cross_swap23]
    omega
  rcases eq_or_lt_of_le (by omega : a.x ≤ b.x) with hxeq | hxlt
  · -- vertical window: either `a = b` (then `q = a`) or interpolate in `y`
    rcases eq_or_lt_of_le (lexLe_y_of_eq_x hab hxeq) with hyeq | hylt
    · have hqa : q = a := by
        have hba : lexLe b a := Or.inr ⟨hxeq.symm, le_of_eq hyeq.symm⟩
        exact (lexLe_antisymm haq (lexLe_trans hqb hba)).symm
      rw [hqa]
      exact le_of_eq (cross_self_13 a p).symm
    · have key := interp_y a p a b q
      rw [cross_self_13] at key
      have habq : cross a b q = 0 := by
        unfold cross
        rw [show b.x = a.x from by omega, show q.x = a.x from by omega]
        ring
      rw [habq] at key
      have hay : a.y ≤ q.y := by
        rcases haq with h | ⟨_, h⟩
        · omega
        · exact h
      have hqby : q.y ≤ b.y := by
        rcases hqb with h | ⟨_, h⟩
        · omega
        · exact h
      have hpos : 0 ≤ cross a p b * (q.y - a.y) := mul_nonneg hpb (by omega)
      have hkey2 : cross a p q * (b.y - a.y) = cross a p b * (q.y - a.y) := by
        linarith
      by_contra hcon
      push_neg at hcon
      have : cross a p q * (b.y - a.y) < 0 :=
        mul_neg_of_neg_of_pos hcon (by omega)
      linarith
  · have key := interp_x a p a b q
    rw [cross_self_13] at key
    have h1 : 0 ≤ cross a p b * (q.x - a.x) := mul_nonneg hpb (by omega)
    have h2 : 0 ≤ cross a b q * (p.x - a.x) := mul_nonneg hedge (by omega)
    by_contra hcon
    push_neg at hcon
    have : cross a p q * (b.x - a.x) < 0 := mul_neg_of_neg_of_pos hcon (by omega)
    linarith

/-- The point below the stop position is dominated by the new edge: the stop
condition and the old edge pin `q` on the correct side. -/
theorem stop_edge_dominates (a b p q : Pt)
    (hstop : 0 < cross a b p) (hedge : 0 ≤ cross a b q)
    (hab : lexLe a b) (hqb : lexLe q b) (hbp : lexLe b p) :
    0 ≤ cross b p q := by
  by_contra hcon
  push_neg at hcon
  have key := cramer_shift_x a b p q
  have haxb := lexLe_x hab
  have hqxb := lexLe_x hqb
  have hbxp := lexLe_x hbp
  have hL : cross a b p * (q.x - b.x) ≤ 0 :=
    mul_nonpos_of_nonneg_of_nonpos hstop.le (by omega)
  have hR1 : 0 ≤ cross b p q * (a.x - b.x) :=
    mul_nonneg_np_np hcon.le (by omega)
  have hR2 : 0 ≤ cross a b q * (p.x - b.x) := mul_nonneg hedge (by omega)
  have hz1 : cross b p q * (a.x - b.x) = 0 := by linarith
  have habx : a.x = b.x := by
    rcases mul_eq_zero.mp hz1 with h' | h'
    · exact absurd h' (ne_of_lt hcon)
    · omega
  have hay : a.y ≤ b.y := lexLe_y_of_eq_x hab habx
  have hle : cross a b p ≤ 0 := by
    have hd : cross a b p = -((b.y - a.y) * (p.x - a.x)) := by
      unfold cross
      rw [show b.x = a.x from by omega]
      ring
    have := mul_nonneg (by omega : (0:ℤ) ≤ b.y - a.y) (by omega : (0:ℤ) ≤ p.x - a.x)
    omega
  exact absurd hstop (not_lt.mpr hle)

/-! Structural facts about the chain predicates. -/

theorem sortedRev_tail {x : Pt} {l : List Pt} (h : sortedRev (x :: l)) :
    sortedRev l := by
  cases l with
  | nil => trivial
  | cons y r => exact h.2

theorem convexRev_tail {x : Pt} {l : List Pt} (h : convexRev (x :: l)) :
    convexRev l := by
  cases l with
  | nil => trivial
  | cons y r =>
      cases r with
      | nil => trivial
      | cons z r2 => exact h.2

theorem edgesRev_tail {x : Pt} {l : List Pt} {q : Pt} (h : edgesRev (x :: l) q) :
    edgesRev l q := by
  cases l with
  | nil => trivial
  | cons y r => exact h.2

theorem edgesRev_of_strict : ∀ {l : List Pt} {q : Pt}, edgesRevS l q → edgesRev l q := by
  intro l
  induction l with
  | nil => intro q _; trivial
  | cons x r ih =>
      intro q h
      cases r with
      | nil => trivial
      | cons y r2 => exact ⟨le_of_lt h.1, ih h.2⟩

/-- The default value of `getLastD` is immaterial on nonempty lists. -/
theorem getLastD_irrel {l : List Pt} (h : l ≠ []) (d1 d2 : Pt) :
    l.getLastD d1 = l.getLastD d2 := by
  cases l with
  | nil => exact absurd rfl h
  | cons x r => rw [List.getLastD_cons, List.getLastD_cons]

/-- `getLastD` skips the head of a two-or-more element list. -/
theorem getLastD_cons_ne {x : Pt} {l : List Pt} (h : l ≠ []) (d : Pt) :
    (x :: l).getLastD d = l.getLastD d := by
  rw [List.getLastD_cons]
  exact getLastD_irrel h x d

/-- The stop condition at the top edge of the reversed chain. -/
def topOK (p : Pt) : List Pt → Prop
  | b :: a :: _ => 0 < cross a b p
  | _ => True

/-- Every retained chain edge sees `p` strictly to its left, given the stop
condition at the chain's top edge. -/
theorem edgesRevS_p (p : Pt) : ∀ (C : List Pt),
    sortedRev C → convexRev C → (∀ c ∈ C, c.x ≤ p.x) → topOK p C →
    edgesRevS C p := by
  intro C
  induction C with
  | nil => intro _ _ _ _; trivial
  | cons b C' ih =>
      intro hsort hconv hx htop
      cases C' with
      | nil => trivial
      | cons a rest =>
          refine ⟨htop, ?_⟩
          apply ih (sortedRev_tail hsort) (convexRev_tail hconv)
            (fun c hc => hx c (List.mem_cons_of_mem _ hc))
          cases rest with
          | nil => trivial
          | cons z r =>
              have h1 : 0 < cross z a b := hconv.1
              have h2 : 0 < cross a b p := htop
              have hxa : z.x ≤ a.x := lexLe_x hsort.2.1
              have hxb : a.x ≤ b.x := lexLe_x hsort.1
              have hxp : b.x ≤ p.x := hx b (List.mem_cons_self _ _)
              exact turn_prop_C1 z a b p h1 h2 hxa hxb hxp

/-- The complete specification of one `chainPush` call: the result is `p` on
top of a suffix of the old chain, and all chain invariants are preserved with
`p` now weakly right of every kept edge and of the new top edge. -/
theorem chainPush_spec (S : List Pt) (p : Pt) (hple : ∀ q ∈ S, lexLe q p) :
    ∀ (C : List Pt), C ≠ [] →
      sortedRev C →
      convexRev C →
      (∀ q ∈ S, edgesRev C q) →
      (∀ c ∈ C, c ∈ S) →
      (∀ q ∈ S, lexLe (C.getLastD ⟨0,0⟩) q) →
      (∀ q ∈ S, lexLe q (C.headD ⟨0,0⟩) ∨ 0 ≤ cross (C.headD ⟨0,0⟩) p q) →
      ∃ Cfin, chainPush C p = p :: Cfin ∧ Cfin ≠ [] ∧
        Cfin.getLastD ⟨0,0⟩ = C.getLastD ⟨0,0⟩ ∧
        (∀ c ∈ Cfin, c ∈ C) ∧
        sortedRev (p :: Cfin) ∧
        convexRev (p :: Cfin) ∧
        (∀ q ∈ S, edgesRev (p :: Cfin) q) ∧
        edgesRev (p :: Cfin) p := by
  intro C
  induction C with
  | nil => intro h; exact absurd rfl h
  | cons b C' ih =>
      intro _ hsort hconv hedges hmem hbot htop
      cases C' with
      | nil =>
          refine ⟨[b], rfl, by simp, rfl, fun c hc => hc, ?_, trivial, ?_, ?_⟩
          · exact ⟨hple b (hmem b (List.mem_cons_self _ _)), trivial⟩
          · intro q hq
            refine ⟨?_, trivial⟩
            rcases htop q hq with h | h
            · have hb : lexLe b q := hbot q hq
              have hqb : q = b := lexLe_antisymm h hb
              rw [hqb]
              exact le_of_eq (cross_self_13 b p).symm
            · exact h
          · exact ⟨le_of_eq (cross_self_right b p).symm, trivial⟩
      | cons a rest =>
          by_cases hpop : cross a b p ≤ 0
          · have heq : chainPush (b :: a :: rest) p = chainPush (a :: rest) p := by
              rw [chainPush]
              exact if_pos hpop
            have hedge_ab : ∀ q ∈ S, 0 ≤ cross a b q := fun q hq => (hedges q hq).1
            obtain ⟨Cfin, h1, h2, h3, h4, h5, h6, h7, h8⟩ :=
              ih (by simp) (sortedRev_tail hsort) (convexRev_tail hconv)
                (fun q hq => edgesRev_tail (hedges q hq))
                (fun c hc => hmem c (List.mem_cons_of_mem _ hc))
                (fun q hq => by
                  have h := hbot q hq
                  rwa [getLastD_cons_ne (by simp) ⟨0,0⟩] at h)
                (fun q hq => by
                  rcases htop q hq with h | h
                  · rcases lexLe_total q a with h' | h'
                    · exact Or.inl h'
                    · exact Or.inr (pop_window_dominates a b p q hpop
                        (hedge_ab q hq) hsort.1 h' h
                        (hple a (hmem a (List.mem_cons_of_mem _ (List.mem_cons_self _ _)))))
                  · exact Or.inr (pop_edge_dominates a b p q hpop (hedge_ab q hq) h))
            refine ⟨Cfin, heq.trans h1, h2, ?_, ?_, h5, h6, h7, h8⟩
            · rw [h3]
              exact (getLastD_cons_ne (by simp) ⟨0,0⟩).symm
            · exact fun c hc => List.mem_cons_of_mem _ (h4 c hc)
          · push_neg at hpop
            have heq : chainPush (b :: a :: rest) p = p :: b :: a :: rest := by
              rw [chainPush]
              exact if_neg (not_le.mpr hpop)
            refine ⟨b :: a :: rest, heq, by simp, rfl, fun c hc => hc, ?_, ?_, ?_, ?_⟩
            · exact ⟨hple b (hmem b (List.mem_cons_self _ _)), hsort⟩
            · exact ⟨hpop, hconv⟩
            · intro q hq
              refine ⟨?_, hedges q hq⟩
              rcases htop q hq with h | h
              · exact stop_edge_dominates a b p q hpop ((hedges q hq).1)
                  hsort.1 h (hple b (hmem b (List.mem_cons_self _ _)))
              · exact h
            · refine ⟨le_of_eq (cross_self_right b p).symm, ?_⟩
              exact edgesRev_of_strict (edgesRevS_p p (b :: a :: rest) hsort hconv
                (fun c hc => lexLe_x (hple c (hmem c hc))) hpop)

/-! Generic adjacent-pair and adjacent-triple predicates on point lists,
used to move between the reversed chain invariants and the cyclic
index form of the hull tests. -/

/-- `P` holds on every adjacent pair. -/
def pairs2 (P : Pt → Pt → Prop) : List Pt → Prop
  | x :: y :: rest => P x y ∧ pairs2 P (y :: rest)
  | _ => True

/-- `P` holds on every adjacent triple. -/
def triples3 (P : Pt → Pt → Pt → Prop) : List Pt → Prop
  | x :: y :: z :: rest => P x y z ∧ triples3 P (y :: z :: rest)
  | _ => True

theorem pairs2_imp {P Q : Pt → Pt → Prop} (h : ∀ a b, P a b → Q a b) :
    ∀ l, pairs2 P l → pairs2 Q l := by
  intro l
  induction l with
  | nil => intro _; trivial
  | cons x l' ih =>
      intro hp
      cases l' with
      | nil => trivial
      | cons y r => exact ⟨h x y hp.1, ih hp.2⟩

theorem triples3_imp {P Q : Pt → Pt → Pt → Prop} (h : ∀ a b c, P a b c → Q a b c) :
    ∀ l, triples3 P l → triples3 Q l := by
  intro l
  induction l with
  | nil => intro _; trivial
  | cons x l' ih =>
      intro hp
      cases l' with
      | nil => trivial
      | cons y r =>
          cases r with
          | nil => trivial
          | cons z r' => exact ⟨h x y z hp.1, ih hp.2⟩

theorem pairs2_map {P : Pt → Pt → Prop} (f : Pt → Pt) :
    ∀ l, pairs2 (fun a b => P (f a) (f b)) l → pairs2 P (l.map f) := by
  intro l
  induction l with
  | nil => intro _; trivial
  | cons x l' ih =>
      intro hp
      cases l' with
      | nil => trivial
      | cons y r => exact ⟨hp.1, ih hp.2⟩

theorem triples3_map {P : Pt → Pt → Pt → Prop} (f : Pt → Pt) :
    ∀ l, triples3 (fun a b c => P (f a) (f b) (f c)) l → triples3 P (l.map f) := by
  intro l
  induction l with
  | nil => intro _; trivial
  | cons x l' ih =>
      intro hp
      cases l' with
      | nil => trivial
      | cons y r =>
          cases r with
          | nil => trivial
          | cons z r' => exact ⟨hp.1, ih hp.2⟩

theorem pairs2_glue {P : Pt → Pt → Prop} :
    ∀ (A : List Pt) (b : Pt) (B : List Pt),
      pairs2 P (A ++ [b]) → pairs2 P (b :: B) → pairs2 P (A ++ b :: B) := by
  intro A
  induction A with
  | nil => intro b B _ h2; exact h2
  | cons a A' ih =>
      intro b B h1 h2
      cases A' with
      | nil => exact ⟨h1.1, h2⟩
      | cons a2 A'' => exact ⟨h1.1, ih b B h1.2 h2⟩

theorem triples3_glue {P : Pt → Pt → Pt → Prop} :
    ∀ (A : List Pt) (b c : Pt) (B : List Pt),
      triples3 P (A ++ [b, c]) → triples3 P (b :: c :: B) →
      triples3 P (A ++ b :: c :: B) := by
  intro A
  induction A with
  | nil => intro b c B _ h2; exact h2
  | cons a A' ih =>
      intro b c B h1 h2
      cases A' with
      | nil => exact ⟨h1.1, h2⟩
      | cons a2 A'' =>
          cases A'' with
          | nil => exact ⟨h1.1, ih b c B h1.2 h2⟩
          | cons a3 A3 => exact ⟨h1.1, ih b c B h1.2 h2⟩

theorem pairs2_append_left {P : Pt → Pt → Prop} :
    ∀ (A B : List Pt), pairs2 P (A ++ B) → pairs2 P A := by
  intro A
  induction A with
  | nil => intro B _; trivial
  | cons a A' ih =>
      intro B h
      cases A' with
      | nil => trivial
      | cons a2 A'' => exact ⟨h.1, ih B h.2⟩

theorem pairs2_reverse {P : Pt → Pt → Prop} :
    ∀ l, pairs2 P l → pairs2 (fun a b => P b a) l.reverse := by
  intro l
  induction l with
  | nil => intro _; trivial
  | cons x l' ih =>
      intro hp
      cases l' with
      | nil => trivial
      | cons y r =>
          have hih := ih hp.2
          rw [List.reverse_cons] at hih
          have hglue := pairs2_glue r.reverse y [x] hih ⟨hp.1, trivial⟩
          simp only [List.reverse_cons, List.append_assoc]
          simpa using hglue

theorem triples3_reverse {P : Pt → Pt → Pt → Prop} :
    ∀ l, triples3 P l → triples3 (fun a b c => P c b a) l.reverse := by
  intro l
  induction l with
  | nil => intro _; trivial
  | cons x l' ih =>
      intro hp
      cases l' with
      | nil => trivial
      | cons y r =>
          cases r with
          | nil => trivial
          | cons z r' =>
              have hglue := triples3_glue r'.reverse z y [x] (by
                  have := ih hp.2
                  simpa [List.reverse_cons, List.append_assoc] using this)
                ⟨hp.1, trivial⟩
              simp only [List.reverse_cons, List.append_assoc]
              simpa using hglue

theorem pairs2_getD {P : Pt → Pt → Prop} (d : Pt) :
    ∀ l, pairs2 P l → ∀ i, i + 1 < l.length → P (l.getD i d) (l.getD (i+1) d) := by
  intro l
  induction l with
  | nil => intro _ i hi; simp at hi
  | cons x l' ih =>
      intro hp i hi
      cases l' with
      | nil => simp at hi
      | cons y r =>
          cases i with
          | zero => exact hp.1
          | succ i' =>
              have := ih hp.2 i' (by simpa using hi)
              simpa [List.getD_cons_succ] using this

theorem triples3_getD {P : Pt → Pt → Pt → Prop} (d : Pt) :
    ∀ l, triples3 P l → ∀ i, i + 2 < l.length →
      P (l.getD i d) (l.getD (i+1) d) (l.getD (i+2) d) := by
  intro l
  induction l with
  | nil => intro _ i hi; simp at hi
  | cons x l' ih =>
      intro hp i hi
      cases l' with
      | nil => simp at hi
      | cons y r =>
          cases r with
          | nil => simp at hi
          | cons z r' =>
              cases i with
              | zero => exact hp.1
              | succ i' =>
                  have := ih hp.2 i' (by simpa using hi)
                  simpa [List.getD_cons_succ] using this

/-! Conversions between the chain predicates and the generic forms. -/

theorem edgesRev_iff_pairs2 {q : Pt} :
    ∀ {C : List Pt}, edgesRev C q ↔ pairs2 (fun x y => 0 ≤ cross y x q) C := by
  intro C
  induction C with
  | nil => exact Iff.rfl
  | cons x C' ih =>
      cases C' with
      | nil => exact Iff.rfl
      | cons y r => exact and_congr Iff.rfl ih

theorem sortedRev_iff_pairs2 :
    ∀ {C : List Pt}, sortedRev C ↔ pairs2 (fun x y => lexLe y x) C := by
  intro C
  induction C with
  | nil => exact Iff.rfl
  | cons x C' ih =>
      cases C' with
      | nil => exact Iff.rfl
      | cons y r => exact and_congr Iff.rfl ih

theorem convexRev_iff_triples3 :
    ∀ {C : List Pt}, convexRev C ↔ triples3 (fun x y z => 0 < cross z y x) C := by
  intro C
  induction C with
  | nil => exact Iff.rfl
  | cons x C' ih =>
      cases C' with
      | nil => exact Iff.rfl
      | cons y r =>
          cases r with
          | nil => exact Iff.rfl
          | cons z r' => exact and_congr Iff.rfl ih

/-! Small `getD` / `headD` utilities. -/

theorem getD_append_lt (d : Pt) :
    ∀ (A B : List Pt) (i : ℕ), i < A.length → (A ++ B).getD i d = A.getD i d := by
  intro A
  induction A with
  | nil => intro B i hi; simp at hi
  | cons a A' ih =>
      intro B i hi
      cases i with
      | zero => rfl
      | succ i' =>
          simp only [List.cons_append, List.getD_cons_succ]
          exact ih B i' (by simpa using hi)

theorem getD_append_ge (d : Pt) :
    ∀ (A B : List Pt) (j : ℕ), (A ++ B).getD (A.length + j) d = B.getD j d := by
  intro A
  induction A with
  | nil => intro B j; simp
  | cons a A' ih =>
      intro B j
      simp only [List.cons_append, List.length_cons]
      have : A'.length + 1 + j = (A'.length + j) + 1 := by omega
      rw [this, List.getD_cons_succ]
      exact ih B j

theorem getD_zero_headD (d : Pt) (l : List Pt) : l.getD 0 d = l.headD d := by
  cases l <;> rfl

theorem headD_mem {l : List Pt} (h : l ≠ []) (d : Pt) : l.headD d ∈ l := by
  cases l with
  | nil => exact absurd rfl h
  | cons x r => exact List.mem_cons_self _ _

theorem getLastD_mem : ∀ {l : List Pt}, l ≠ [] → ∀ (d : Pt), l.getLastD d ∈ l := by
  intro l
  induction l with
  | nil => intro h; exact absurd rfl h
  | cons x r ih =>
      intro _ d
      cases r with
      | nil => exact List.mem_cons_self _ _
      | cons y r' =>
          rw [getLastD_cons_ne (by simp) d]
          exact List.mem_cons_of_mem _ (ih (by simp) d)

theorem headD_append {A : List Pt} (B : List Pt) (h : A ≠ []) (d : Pt) :
    (A ++ B).headD d = A.headD d := by
  cases A with
  | nil => exact absurd rfl h
  | cons a r => rfl

theorem headD_reverse : ∀ (l : List Pt) (d : Pt), l.reverse.headD d = l.getLastD d := by
  intro l
  induction l with
  | nil => intro d; rfl
  | cons a l' ih =>
      intro d
      cases hrev : l'.reverse with
      | nil =>
          have hl' : l' = [] := by simpa using congrArg List.reverse hrev
          subst hl'
          rfl
      | cons x r =>
          have hl' : l' ≠ [] := by
            intro hc
            rw [hc] at hrev
            simp at hrev
          rw [List.getLastD_cons]
          have := ih a
          rw [hrev] at this
          simp only [List.reverse_cons, hrev, List.cons_append, List.headD_cons]
          rw [← this]
          rfl

theorem eq_headD_cons_tail {l : List Pt} (h : l ≠ []) (d : Pt) :
    l = l.headD d :: l.tail := by
  cases l with
  | nil => exact absurd rfl h
  | cons x r => rfl

theorem getD_mem_of_lt {l : List Pt} {i : ℕ} (h : i < l.length) (d : Pt) :
    l.getD i d ∈ l := by
  rw [List.getD_eq_getElem l d h]
  exact List.getElem_mem h

/-! Bridges from the structural predicates to the cyclic-index hull tests. -/

theorem insideHullb_of_pairs2 (H : List Pt) (q : Pt)
    (hp : pairs2 (fun x y => 0 ≤ cross x y q) (H ++ [H.getD 0 ⟨0,0⟩])) :
    insideHullb H q = true := by
  unfold insideHullb
  rw [List.all_eq_true]
  intro i hi
  rw [List.mem_range] at hi
  simp only [decide_eq_true_eq]
  have key := pairs2_getD ⟨0,0⟩ _ hp i (by
    simp only [List.length_append, List.length_cons, List.length_nil]
    omega)
  rw [getD_append_lt ⟨0,0⟩ H _ i hi] at key
  rcases lt_or_ge (i+1) H.length with h1 | h1
  · rw [getD_append_lt ⟨0,0⟩ H _ (i+1) h1] at key
    rw [Nat.mod_eq_of_lt h1]
    exact key
  · have hieq : i + 1 = H.length := by omega
    rw [show i + 1 = H.length + 0 from by omega, getD_append_ge] at key
    simp only [List.getD_cons_zero] at key
    rw [hieq, Nat.mod_self]
    exact key

theorem isConvexCCWb_of_triples3 (H : List Pt) (h3 : 3 ≤ H.length)
    (ht : triples3 (fun a b c => 0 < cross a b c)
      (H ++ [H.getD 0 ⟨0,0⟩, H.getD 1 ⟨0,0⟩])) :
    isConvexCCWb H = true := by
  unfold isConvexCCWb
  rw [List.all_eq_true]
  intro i hi
  rw [List.mem_range] at hi
  simp only [decide_eq_true_eq]
  have key := triples3_getD ⟨0,0⟩ _ ht i (by
    simp only [List.length_append, List.length_cons, List.length_nil]
    omega)
  rw [getD_append_lt ⟨0,0⟩ H _ i hi] at key
  rcases lt_or_ge (i+2) H.length with h2 | h2
  · have h1 : i + 1 < H.length := by omega
    rw [getD_append_lt ⟨0,0⟩ H _ (i+1) h1, getD_append_lt ⟨0,0⟩ H _ (i+2) h2] at key
    rw [Nat.mod_eq_of_lt h1, Nat.mod_eq_of_lt h2]
    exact key
  · rcases lt_or_ge (i+1) H.length with h1 | h1
    · have h2e : i + 2 = H.length := by omega
      rw [getD_append_lt ⟨0,0⟩ H _ (i+1) h1] at key
      rw [show i + 2 = H.length + 0 from by omega, getD_append_ge] at key
      simp only [List.getD_cons_zero] at key
      rw [Nat.mod_eq_of_lt h1, h2e, Nat.mod_self]
      exact key
    · have h1e : i + 1 = H.length := by omega
      rw [show i + 1 = H.length + 0 from by omega, getD_append_ge] at key
      rw [show i + 2 = H.length + 1 from by omega, getD_append_ge] at key
      simp only [List.getD_cons_zero, List.getD_cons_succ] at key
      rw [h1e, Nat.mod_self]
      rw [show i + 2 = H.length + 1 from by omega, Nat.add_mod_left,
        Nat.mod_eq_of_lt (by omega : 1 < H.length)]
      exact key

theorem insideHullb_const (H : List Pt) (s : Pt) (hall : ∀ c ∈ H, c = s) :
    insideHullb H s = true := by
  unfold insideHullb
  rw [List.all_eq_true]
  intro i hi
  rw [List.mem_range] at hi
  simp only [decide_eq_true_eq]
  have e1 : H.getD i ⟨0,0⟩ = s := hall _ (getD_mem_of_lt hi _)
  have e2 : H.getD ((i+1) % H.length) ⟨0,0⟩ = s :=
    hall _ (getD_mem_of_lt (Nat.mod_lt _ (by omega)) _)
  rw [e1, e2, cross_self_left]

/-! Negation transport: the upper chain is the lower chain of the negated
point set. -/

/-- Point negation. -/
def negPt (p : Pt) : Pt := ⟨-p.x, -p.y⟩

theorem negPt_invol (p : Pt) : negPt (negPt p) = p := by
  cases p
  simp [negPt]

theorem negPt_zero : negPt ⟨0,0⟩ = (⟨0,0⟩ : Pt) := by
  simp [negPt]

theorem cross_negPt (a b c : Pt) :
    cross (negPt a) (negPt b) (negPt c) = cross a b c := by
  unfold cross negPt
  dsimp only
  ring

theorem lexLe_negPt {a b : Pt} : lexLe (negPt a) (negPt b) ↔ lexLe b a := by
  unfold lexLe negPt
  dsimp only
  omega

theorem chainPush_negPt : ∀ (C : List Pt) (p : Pt),
    chainPush (C.map negPt) (negPt p) = (chainPush C p).map negPt := by
  intro C
  induction C with
  | nil => intro p; rfl
  | cons b C' ih =>
      intro p
      cases C' with
      | nil => rfl
      | cons a rest =>
          simp only [List.map_cons]
          rw [chainPush, chainPush, cross_negPt]
          by_cases h : cross a b p ≤ 0
          · rw [if_pos h, if_pos h]
            have hih := ih p
            simp only [List.map_cons] at hih
            exact hih
          · rw [if_neg h, if_neg h]
            simp only [List.map_cons]

theorem buildChain_negPt : ∀ (todo acc : List Pt),
    buildChain (acc.map negPt) (todo.map negPt) = (buildChain acc todo).map negPt := by
  intro todo
  induction todo with
  | nil => intro acc; rfl
  | cons p rest ih =>
      intro acc
      simp only [List.map_cons]
      have e1 : buildChain (acc.map negPt) (negPt p :: rest.map negPt)
          = buildChain (chainPush (acc.map negPt) (negPt p)) (rest.map negPt) := rfl
      have e2 : buildChain acc (p :: rest) = buildChain (chainPush acc p) rest := rfl
      rw [e1, e2, chainPush_negPt]
      exact ih (chainPush acc p)

theorem headD_map_negPt (l : List Pt) (d : Pt) :
    (l.map negPt).headD (negPt d) = negPt (l.headD d) := by
  cases l <;> rfl

theorem getLastD_map_negPt : ∀ (l : List Pt) (d : Pt),
    (l.map negPt).getLastD (negPt d) = negPt (l.getLastD d) := by
  intro l
  induction l with
  | nil => intro d; rfl
  | cons x r ih =>
      intro d
      simp only [List.map_cons, List.getLastD_cons]
      exact ih x

/-- In a sorted list the last element is an upper bound. -/
theorem pairwise_getLastD_max :
    ∀ {pts : List Pt}, List.Pairwise lexLe pts →
      ∀ (d : Pt), ∀ q ∈ pts, lexLe q (pts.getLastD d) := by
  intro pts
  induction pts with
  | nil => intro _ d q hq; simp at hq
  | cons x rest ih =>
      intro hpw d q hq
      rw [List.pairwise_cons] at hpw
      rcases List.mem_cons.mp hq with h | h
      · subst h
        cases rest with
        | nil => exact lexLe_refl q
        | cons y r =>
            rw [getLastD_cons_ne (by simp) d]
            exact hpw.1 _ (getLastD_mem (by simp) d)
      · rw [getLastD_cons_ne (by
          intro hc
          rw [hc] at h
          simp at h) d]
        exact ih hpw.2 d q h

/-! The complete fold specification: `buildChain` over a sorted list turns the
invariants of `chainPush` into global chain facts. -/

theorem buildChain_spec :
    ∀ (todo : List Pt), List.Pairwise lexLe todo →
    ∀ (done C : List Pt), C ≠ [] →
      (∀ q ∈ done, ∀ p ∈ todo, lexLe q p) →
      sortedRev C → convexRev C →
      (∀ q ∈ done, edgesRev C q) →
      (∀ c ∈ C, c ∈ done) →
      (∀ q ∈ done, lexLe (C.getLastD ⟨0,0⟩) q) →
      (∀ q ∈ done, lexLe q (C.headD ⟨0,0⟩)) →
      ∃ R, buildChain C todo = R ∧ R ≠ [] ∧
        R.getLastD ⟨0,0⟩ = C.getLastD ⟨0,0⟩ ∧
        (∀ c ∈ R, c ∈ done ∨ c ∈ todo) ∧
        sortedRev R ∧ convexRev R ∧
        (∀ q ∈ done, edgesRev R q) ∧ (∀ q ∈ todo, edgesRev R q) ∧
        (∀ q ∈ done, lexLe q (R.headD ⟨0,0⟩)) ∧
        (∀ q ∈ todo, lexLe q (R.headD ⟨0,0⟩)) := by
  intro todo
  induction todo with
  | nil =>
      intro _ done C hne hsplit hsort hconv hedges hmem hbot hhead
      refine ⟨C, rfl, hne, rfl, fun c hc => Or.inl (hmem c hc), hsort, hconv,
        hedges, ?_, hhead, ?_⟩
      · intro q hq; simp at hq
      · intro q hq; simp at hq
  | cons p todo' ih =>
      intro hpw done C hne hsplit hsort hconv hedges hmem hbot hhead
      rw [List.pairwise_cons] at hpw
      have hple : ∀ q ∈ done, lexLe q p :=
        fun q hq => hsplit q hq p (List.mem_cons_self _ _)
      obtain ⟨Cfin, h1, h2, h3, h4, h5, h6, h7, h8⟩ :=
        chainPush_spec done p hple C hne hsort hconv hedges hmem hbot
          (fun q hq => Or.inl (hhead q hq))
      obtain ⟨R, hr1, hr2, hr3, hr4, hr5, hr6, hr7, hr8, hr9, hr10⟩ :=
        ih hpw.2 (done ++ [p]) (p :: Cfin) (by simp)
          (by
            intro q hq r hr
            rcases List.mem_append.mp hq with hq' | hq'
            · exact hsplit q hq' r (List.mem_cons_of_mem _ hr)
            · simp at hq'
              subst hq'
              exact hpw.1 r hr)
          h5 h6
          (by
            intro q hq
            rcases List.mem_append.mp hq with hq' | hq'
            · exact h7 q hq'
            · simp at hq'
              subst hq'
              exact h8)
          (by
            intro c hc
            rcases List.mem_cons.mp hc with hc' | hc'
            · subst hc'
              exact List.mem_append.mpr (Or.inr (List.mem_cons_self _ _))
            · exact List.mem_append.mpr (Or.inl (hmem c (h4 c hc'))))
          (by
            intro q hq
            rw [getLastD_cons_ne h2 ⟨0,0⟩, h3]
            rcases List.mem_append.mp hq with hq' | hq'
            · exact hbot q hq'
            · simp at hq'
              subst hq'
              exact hple _ (hmem _ (getLastD_mem hne ⟨0,0⟩)))
          (by
            intro q hq
            rcases List.mem_append.mp hq with hq' | hq'
            · exact hple q hq'
            · rw [show q = p from by simpa using hq']
              exact lexLe_refl p)
      refine ⟨R, ?_, hr2, ?_, ?_, hr5, hr6, ?_, ?_, ?_, ?_⟩
      · have e : buildChain C (p :: todo') = buildChain (chainPush C p) todo' := rfl
        rw [e, h1]
        exact hr1
      · rw [hr3, getLastD_cons_ne h2 ⟨0,0⟩, h3]
      · intro c hc
        rcases hr4 c hc with hc' | hc'
        · rcases List.mem_append.mp hc' with h | h
          · exact Or.inl h
          · simp at h
            subst h
            exact Or.inr (List.mem_cons_self _ _)
        · exact Or.inr (List.mem_cons_of_mem _ hc')
      · intro q hq
        exact hr7 q (List.mem_append.mpr (Or.inl hq))
      · intro q hq
        rcases List.mem_cons.mp hq with h | h
        · subst h
          exact hr7 q (List.mem_append.mpr (Or.inr (List.mem_cons_self _ _)))
        · exact hr8 q h
      · intro q hq
        exact hr9 q (List.mem_append.mpr (Or.inl hq))
      · intro q hq
        rcases List.mem_cons.mp hq with h | h
        · subst h
          exact hr9 q (List.mem_append.mpr (Or.inr (List.mem_cons_self _ _)))
        · exact hr10 q h

/-- The lower chain: global facts about `buildChain [] pts` on a sorted list. -/
theorem hull_build (pts : List Pt) (hpw : List.Pairwise lexLe pts) (hne : pts ≠ []) :
    ∃ R, buildChain [] pts = R ∧ R ≠ [] ∧
      R.getLastD ⟨0,0⟩ = pts.headD ⟨0,0⟩ ∧
      (∀ c ∈ R, c ∈ pts) ∧ sortedRev R ∧ convexRev R ∧
      (∀ q ∈ pts, edgesRev R q) ∧
      (∀ q ∈ pts, lexLe q (R.headD ⟨0,0⟩)) := by
  cases pts with
  | nil => exact absurd rfl hne
  | cons s rest =>
      rw [List.pairwise_cons] at hpw
      obtain ⟨R, hr1, hr2, hr3, hr4, hr5, hr6, hr7, hr8, hr9, hr10⟩ :=
        buildChain_spec rest hpw.2 [s] [s] (by simp)
          (by
            intro q hq r hr
            simp at hq
            subst hq
            exact hpw.1 r hr)
          trivial trivial
          (by
            intro q hq
            simp at hq
            subst hq
            trivial)
          (by intro c hc; exact hc)
          (by
            intro q hq
            rw [show q = s from by simpa using hq]
            exact lexLe_refl s)
          (by
            intro q hq
            rw [show q = s from by simpa using hq]
            exact lexLe_refl s)
      refine ⟨R, ?_, hr2, ?_, ?_, hr5, hr6, ?_, ?_⟩
      · have e : buildChain [] (s :: rest) = buildChain [s] rest := rfl
        rw [e]
        exact hr1
      · rw [hr3]
        rfl
      · intro c hc
        rcases hr4 c hc with h | h
        · simp at h
          subst h
          exact List.mem_cons_self _ _
        · exact List.mem_cons_of_mem _ h
      · intro q hq
        rcases List.mem_cons.mp hq with h | h
        · subst h
          exact hr7 q (by simp)
        · exact hr8 q h
      · intro q hq
        rcases List.mem_cons.mp hq with h | h
        · subst h
          exact hr9 q (by simp)
        · exact hr10 q h

/-- Degenerate fold: on an all-equal point list the chain stays at one or two
copies of the point. -/
theorem buildChain_const (s : Pt) :
    ∀ (todo C : List Pt), (∀ q ∈ todo, q = s) → (C = [s] ∨ C = [s, s]) →
      buildChain C todo = [s] ∨ buildChain C todo = [s, s] := by
  intro todo
  induction todo with
  | nil =>
      intro C _ hC
      exact hC
  | cons p rest ih =>
      intro C hall hC
      have hp : p = s := hall p (List.mem_cons_self _ _)
      subst hp
      have hstep : chainPush C p = [p, p] := by
        rcases hC with h | h
        · subst h
          rfl
        · subst h
          rw [chainPush, if_pos (le_of_eq (cross_self_left p p))]
          rfl
      have e : buildChain C (p :: rest) = buildChain (chainPush C p) rest := rfl
      rw [e, hstep]
      exact ih [p, p] (fun q hq => hall q (List.mem_cons_of_mem _ hq)) (Or.inr rfl)

/-- In a sorted list the head is a lower bound. -/
theorem pairwise_headD_min {pts : List Pt} (hpw : List.Pairwise lexLe pts) (d : Pt) :
    ∀ q ∈ pts, lexLe (pts.headD d) q := by
  cases pts with
  | nil => intro q hq; simp at hq
  | cons x rest =>
      intro q hq
      rw [List.pairwise_cons] at hpw
      rcases List.mem_cons.mp hq with h | h
      · rw [h]; exact lexLe_refl x
      · exact hpw.1 q h

/-- The upper chain: transported facts about `buildChain [] pts.reverse`. -/
theorem hull_build_upper (pts : List Pt) (hpw : List.Pairwise lexLe pts) (hne : pts ≠ []) :
    ∃ U, buildChain [] pts.reverse = U ∧ U ≠ [] ∧
      U.getLastD ⟨0,0⟩ = pts.getLastD ⟨0,0⟩ ∧
      (∀ c ∈ U, c ∈ pts) ∧
      pairs2 (fun x y => lexLe x y) U ∧
      triples3 (fun x y z => 0 < cross z y x) U ∧
      (∀ q ∈ pts, pairs2 (fun x y => 0 ≤ cross y x q) U) ∧
      (∀ q ∈ pts, lexLe (U.headD ⟨0,0⟩) q) := by
  have hpwN : List.Pairwise lexLe ((pts.reverse).map negPt) := by
    rw [List.pairwise_map, List.pairwise_reverse]
    exact List.Pairwise.imp (fun h => lexLe_negPt.mpr h) hpw
  have hneN : (pts.reverse).map negPt ≠ [] := by simp [hne]
  obtain ⟨R, hr1, hr2, hr3, hr4, hr5, hr6, hr7, hr8⟩ := hull_build _ hpwN hneN
  have hUm : (buildChain [] pts.reverse).map negPt = R := by
    rw [← buildChain_negPt]
    exact hr1
  have hU : buildChain [] pts.reverse = R.map negPt := by
    rw [← hUm, List.map_map]
    have hcomp : negPt ∘ negPt = id := funext negPt_invol
    rw [hcomp, List.map_id]
  refine ⟨R.map negPt, hU, ?_, ?_, ?_, ?_, ?_, ?_, ?_⟩
  · intro hc
    exact hr2 (by simpa using hc)
  · have h1 := getLastD_map_negPt R ⟨0,0⟩
    rw [negPt_zero] at h1
    rw [h1, hr3]
    have h2 := headD_map_negPt pts.reverse ⟨0,0⟩
    rw [negPt_zero] at h2
    rw [h2, negPt_invol, headD_reverse]
  · intro c hc
    rcases List.mem_map.mp hc with ⟨c', hc', rfl⟩
    have hmm := hr4 c' hc'
    rcases List.mem_map.mp hmm with ⟨c'', hc'', hc2⟩
    rw [← hc2, negPt_invol]
    exact List.mem_reverse.mp hc''
  · apply pairs2_map
    exact pairs2_imp (fun a b h => lexLe_negPt.mpr h) R (sortedRev_iff_pairs2.mp hr5)
  · apply triples3_map
    apply triples3_imp _ R (convexRev_iff_triples3.mp hr6)
    intro a b c h
    rw [cross_negPt]
    exact h
  · intro q hq
    have hqN : negPt q ∈ (pts.reverse).map negPt :=
      List.mem_map.mpr ⟨q, List.mem_reverse.mpr hq, rfl⟩
    apply pairs2_map
    apply pairs2_imp _ R (edgesRev_iff_pairs2.mp (hr7 _ hqN))
    intro a b h
    rw [show q = negPt (negPt q) from (negPt_invol q).symm, cross_negPt]
    exact h
  · intro q hq
    have hqN : negPt q ∈ (pts.reverse).map negPt :=
      List.mem_map.mpr ⟨q, List.mem_reverse.mpr hq, rfl⟩
    have h := hr8 _ hqN
    have h2 := headD_map_negPt R ⟨0,0⟩
    rw [negPt_zero] at h2
    rw [h2, show q = negPt (negPt q) from (negPt_invol q).symm]
    exact lexLe_negPt.mpr h

/-! Strictness of the two seam turns of the assembled hull. -/

theorem seam_strict_A (a e u z : Pt)
    (hae : lexLe a e) (hane : a ≠ e)
    (hue : lexLe u e) (hune : u ≠ e)
    (hge : 0 ≤ cross a e u)
    (hturn : 0 < cross z a e)
    (hedge : 0 ≤ cross e u z) : 0 < cross a e u := by
  rcases lt_or_eq_of_le hge with h | h
  · exact h
  · exfalso
    have hcol : (e.x - a.x) * (u.y - e.y) - (e.y - a.y) * (u.x - e.x) = 0 := by
      have e1 : (e.x - a.x) * (u.y - e.y) - (e.y - a.y) * (u.x - e.x)
          = cross a e u := by
        unfold cross
        ring
      rw [e1]
      exact h.symm
    have hwv : (e.x - a.x) * (z.y - e.y) - (e.y - a.y) * (z.x - e.x)
        = cross z a e := by
      unfold cross
      ring
    have hzv : (u.x - e.x) * (z.y - e.y) - (u.y - e.y) * (z.x - e.x)
        = cross e u z := by
      unfold cross
      ring
    have hw := lex_strict_vec hae hane
    have hz' := lex_strict_vec hue hune
    have hkey := cross_opposite_dirs (e.x - a.x) (e.y - a.y) (u.x - e.x) (u.y - e.y)
      (z.x - e.x) (z.y - e.y) hcol hw
      (by
        rcases hz' with h' | ⟨h1, h2⟩
        · exact Or.inl (by omega)
        · exact Or.inr ⟨by omega, by omega⟩)
      (by rw [hwv]; exact hturn.le)
      (by rw [hzv]; exact hedge)
    rw [hwv] at hkey
    exact absurd hkey (ne_of_gt hturn)

theorem seam_strict_B (a e u z : Pt)
    (hae : lexLe a e) (hane : a ≠ e)
    (hue : lexLe u e) (hune : u ≠ e)
    (hge : 0 ≤ cross a e u)
    (hturn : 0 < cross e u z)
    (hedge : 0 ≤ cross a e z) : 0 < cross a e u := by
  rcases lt_or_eq_of_le hge with h | h
  · exact h
  · exfalso
    have hcol : (e.x - a.x) * (u.y - e.y) - (e.y - a.y) * (u.x - e.x) = 0 := by
      have e1 : (e.x - a.x) * (u.y - e.y) - (e.y - a.y) * (u.x - e.x)
          = cross a e u := by
        unfold cross
        ring
      rw [e1]
      exact h.symm
    have hwv : (e.x - a.x) * (z.y - e.y) - (e.y - a.y) * (z.x - e.x)
        = cross z a e := by
      unfold cross
      ring
    have hzv : (u.x - e.x) * (z.y - e.y) - (u.y - e.y) * (z.x - e.x)
        = cross e u z := by
      unfold cross
      ring
    have hw := lex_strict_vec hae hane
    have hz' := lex_strict_vec hue hune
    have hwne : ¬ ((e.x - a.x) = 0 ∧ (e.y - a.y) = 0) := by
      rcases hw with h' | ⟨h1, h2⟩
      · intro hc; omega
      · intro hc; omega
    have hkey := cross_opposite_dirs (e.x - a.x) (e.y - a.y) (u.x - e.x) (u.y - e.y)
      (z.x - e.x) (z.y - e.y) hcol hw
      (by
        rcases hz' with h' | ⟨h1, h2⟩
        · exact Or.inl (by omega)
        · exact Or.inr ⟨by omega, by omega⟩)
      (by
        rw [hwv, cross_cyclic]
        exact hedge)
      (by rw [hzv]; exact hturn.le)
    have hpar := parallel_trans (e.x - a.x) (e.y - a.y) (u.x - e.x) (u.y - e.y)
      (z.x - e.x) (z.y - e.y) hwne hcol hkey
    rw [hzv] at hpar
    exact absurd hpar (ne_of_gt hturn)

/-- Containment: in the nondegenerate case every sorted input point passes the
edge test of the assembled hull. -/
theorem hull_contain (pts : List Pt) (hpw : List.Pairwise lexLe pts) (hne : pts ≠ [])
    (hsne : pts.headD ⟨0,0⟩ ≠ pts.getLastD ⟨0,0⟩) :
    ∀ q ∈ pts, insideHullb ((buildChain [] pts).tail.reverse
      ++ (buildChain [] pts.reverse).tail.reverse) q = true := by
  obtain ⟨L, hL1, hL2, hL3, hL4, hLsort, hLconv, hL6r, hL8⟩ := hull_build pts hpw hne
  obtain ⟨U, hU1, hU2, hU3, hU4, hU5, hU6, hU7, hU8⟩ := hull_build_upper pts hpw hne
  rw [hL1, hU1]
  set s := pts.headD ⟨0,0⟩ with hs
  set e := pts.getLastD ⟨0,0⟩ with he
  have hmin : ∀ q ∈ pts, lexLe s q := pairwise_headD_min hpw ⟨0,0⟩
  have hmax : ∀ q ∈ pts, lexLe q e := pairwise_getLastD_max hpw ⟨0,0⟩
  have hse : s ∈ pts := headD_mem hne ⟨0,0⟩
  have hee : e ∈ pts := getLastD_mem hne ⟨0,0⟩
  have hLhead : L.headD ⟨0,0⟩ = e :=
    lexLe_antisymm (hmax _ (hL4 _ (headD_mem hL2 ⟨0,0⟩))) (hL8 e hee)
  have hUhead : U.headD ⟨0,0⟩ = s :=
    lexLe_antisymm (hU8 s hse) (hmin _ (hU4 _ (headD_mem hU2 ⟨0,0⟩)))
  have hLrep1 : L = e :: L.tail := by
    rw [← hLhead]
    exact eq_headD_cons_tail hL2 ⟨0,0⟩
  have hLtne : L.tail ≠ [] := by
    intro hc
    rw [hc] at hLrep1
    rw [hLrep1] at hL3
    exact hsne hL3.symm
  obtain ⟨lk1, L3, hLt⟩ : ∃ a r, L.tail = a :: r := by
    cases h : L.tail with
    | nil => exact absurd h hLtne
    | cons a r => exact ⟨a, r, rfl⟩
  have hLrep : L = e :: lk1 :: L3 := by rw [hLrep1, hLt]
  subst hLrep
  have hUrep1 : U = s :: U.tail := by
    rw [← hUhead]
    exact eq_headD_cons_tail hU2 ⟨0,0⟩
  have hUtne : U.tail ≠ [] := by
    intro hc
    rw [hc] at hUrep1
    rw [hUrep1] at hU3
    exact hsne hU3
  obtain ⟨um, U3, hUt⟩ : ∃ a r, U.tail = a :: r := by
    cases h : U.tail with
    | nil => exact absurd h hUtne
    | cons a r => exact ⟨a, r, rfl⟩
  have hUrep : U = s :: um :: U3 := by rw [hUrep1, hUt]
  subst hUrep
  intro q hq
  simp only [List.tail_cons]
  apply insideHullb_of_pairs2
  have hH0 : ((lk1 :: L3).reverse ++ (um :: U3).reverse).getD 0 ⟨0,0⟩ = s := by
    rw [getD_zero_headD,
      headD_append ((um :: U3).reverse) (show (lk1 :: L3).reverse ≠ [] by simp) ⟨0,0⟩,
      headD_reverse]
    have h3 := hL3
    rw [getLastD_cons_ne (by simp) ⟨0,0⟩] at h3
    exact h3
  rw [hH0]
  have hLpairs : pairs2 (fun x y => 0 ≤ cross x y q) (e :: lk1 :: L3).reverse :=
    pairs2_reverse _ (edgesRev_iff_pairs2.mp (hL6r q hq))
  have hUpairs : pairs2 (fun x y => 0 ≤ cross x y q) (s :: um :: U3).reverse :=
    pairs2_reverse _ (hU7 q hq)
  have harg1 : pairs2 (fun x y => 0 ≤ cross x y q) (L3.reverse ++ [lk1]) := by
    apply pairs2_append_left _ [e]
    simpa [List.reverse_cons, List.append_assoc] using hLpairs
  have hUrevhead : (s :: um :: U3).reverse.headD ⟨0,0⟩ = e := by
    rw [headD_reverse]
    exact hU3
  have hUrev1 : (s :: um :: U3).reverse = e :: (s :: um :: U3).reverse.tail := by
    rw [← hUrevhead]
    exact eq_headD_cons_tail (by simp) ⟨0,0⟩
  have harg2 : pairs2 (fun x y => 0 ≤ cross x y q) (lk1 :: (s :: um :: U3).reverse) := by
    rw [hUrev1]
    refine ⟨?_, ?_⟩
    · exact (hL6r q hq).1
    · rw [← hUrev1]
      exact hUpairs
  have hglue := pairs2_glue L3.reverse lk1 ((s :: um :: U3).reverse) harg1 harg2
  simpa [List.reverse_cons, List.append_assoc] using hglue

/-- Convexity: in the nondegenerate case, when the assembled hull has at least
three vertices, every cyclic turn is strictly left. -/
theorem hull_convex (pts : List Pt) (hpw : List.Pairwise lexLe pts) (hne : pts ≠ [])
    (hsne : pts.headD ⟨0,0⟩ ≠ pts.getLastD ⟨0,0⟩) :
    3 ≤ ((buildChain [] pts).tail.reverse
      ++ (buildChain [] pts.reverse).tail.reverse).length →
    isConvexCCWb ((buildChain [] pts).tail.reverse
      ++ (buildChain [] pts.reverse).tail.reverse) = true := by
  obtain ⟨L, hL1, hL2, hL3, hL4, hLsort, hLconv, hL6r, hL8⟩ := hull_build pts hpw hne
  obtain ⟨U, hU1, hU2, hU3, hU4, hU5, hU6, hU7, hU8⟩ := hull_build_upper pts hpw hne
  rw [hL1, hU1]
  set s := pts.headD ⟨0,0⟩ with hs
  set e := pts.getLastD ⟨0,0⟩ with he
  have hmin : ∀ q ∈ pts, lexLe s q := pairwise_headD_min hpw ⟨0,0⟩
  have hmax : ∀ q ∈ pts, lexLe q e := pairwise_getLastD_max hpw ⟨0,0⟩
  have hse : s ∈ pts := headD_mem hne ⟨0,0⟩
  have hee : e ∈ pts := getLastD_mem hne ⟨0,0⟩
  have hLhead : L.headD ⟨0,0⟩ = e :=
    lexLe_antisymm (hmax _ (hL4 _ (headD_mem hL2 ⟨0,0⟩))) (hL8 e hee)
  have hUhead : U.headD ⟨0,0⟩ = s :=
    lexLe_antisymm (hU8 s hse) (hmin _ (hU4 _ (headD_mem hU2 ⟨0,0⟩)))
  have hLrep1 : L = e :: L.tail := by
    rw [← hLhead]
    exact eq_headD_cons_tail hL2 ⟨0,0⟩
  have hLtne : L.tail ≠ [] := by
    intro hc
    rw [hc] at hLrep1
    rw [hLrep1] at hL3
    exact hsne hL3.symm
  obtain ⟨lk1, L3, hLt⟩ : ∃ a r, L.tail = a :: r := by
    cases h : L.tail with
    | nil => exact absurd h hLtne
    | cons a r => exact ⟨a, r, rfl⟩
  have hLrep : L = e :: lk1 :: L3 := by rw [hLrep1, hLt]
  subst hLrep
  have hUrep1 : U = s :: U.tail := by
    rw [← hUhead]
    exact eq_headD_cons_tail hU2 ⟨0,0⟩
  have hUtne : U.tail ≠ [] := by
    intro hc
    rw [hc] at hUrep1
    rw [hUrep1] at hU3
    exact hsne hU3
  obtain ⟨um, U3, hUt⟩ : ∃ a r, U.tail = a :: r := by
    cases h : U.tail with
    | nil => exact absurd h hUtne
    | cons a r => exact ⟨a, r, rfl⟩
  have hUrep : U = s :: um :: U3 := by rw [hUrep1, hUt]
  subst hUrep
  intro h3
  simp only [List.tail_cons] at h3 ⊢
  -- basic membership
  have hlk1pts : lk1 ∈ pts := hL4 _ (by simp)
  have humpts : um ∈ pts := hU4 _ (by simp)
  -- expose the reversed upper chain: e :: u1 :: U2
  have hUrevhead : (s :: um :: U3).reverse.headD ⟨0,0⟩ = e := by
    rw [headD_reverse]
    exact hU3
  obtain ⟨u1, U2, hUrev2⟩ : ∃ a r, (s :: um :: U3).reverse = e :: a :: r := by
    have hrev1 : (s :: um :: U3).reverse = e :: (s :: um :: U3).reverse.tail := by
      rw [← hUrevhead]
      exact eq_headD_cons_tail (by simp) ⟨0,0⟩
    cases h : (s :: um :: U3).reverse.tail with
    | nil =>
        exfalso
        have hlen := congrArg List.length hrev1
        rw [h] at hlen
        simp at hlen
    | cons a r => exact ⟨a, r, by rw [hrev1, h]⟩
  have hu1pts : u1 ∈ pts := by
    have hm : u1 ∈ (s :: um :: U3).reverse := by
      rw [hUrev2]
      simp
    exact hU4 _ (List.mem_reverse.mp hm)
  -- expose the forward lower chain: s :: w1x :: Z
  have hLrevhead : (e :: lk1 :: L3).reverse.headD ⟨0,0⟩ = s := by
    rw [headD_reverse]
    exact hL3
  obtain ⟨w1x, Z, hLrev2⟩ : ∃ a r, (e :: lk1 :: L3).reverse = s :: a :: r := by
    have hrev1 : (e :: lk1 :: L3).reverse = s :: (e :: lk1 :: L3).reverse.tail := by
      rw [← hLrevhead]
      exact eq_headD_cons_tail (by simp) ⟨0,0⟩
    cases h : (e :: lk1 :: L3).reverse.tail with
    | nil =>
        exfalso
        have hlen := congrArg List.length hrev1
        rw [h] at hlen
        simp at hlen
    | cons a r => exact ⟨a, r, by rw [hrev1, h]⟩
  have hw1xpts : w1x ∈ pts := by
    have hm : w1x ∈ (e :: lk1 :: L3).reverse := by
      rw [hLrev2]
      simp
    exact hL4 _ (List.mem_reverse.mp hm)
  -- length bookkeeping: Z ↔ L3, U2 ↔ U3 emptiness
  have hZlen : Z.length = L3.length := by
    have hlen := congrArg List.length hLrev2
    simp at hlen
    omega
  have hU2len : U2.length = U3.length := by
    have hlen := congrArg List.length hUrev2
    simp at hlen
    omega
  have hlensum : 1 ≤ L3.length + U3.length := by
    have hlen : ((lk1 :: L3).reverse ++ (um :: U3).reverse).length
        = L3.length + 1 + (U3.length + 1) := by
      simp only [List.length_append, List.length_reverse, List.length_cons]
    omega
  -- forward chains
  have hLt3 : triples3 (fun a b c => 0 < cross a b c) (e :: lk1 :: L3).reverse :=
    triples3_reverse _ (convexRev_iff_triples3.mp hLconv)
  have hUt3 : triples3 (fun a b c => 0 < cross a b c) (s :: um :: U3).reverse :=
    triples3_reverse _ hU6
  have hLordT3 : triples3 (fun a b c => 0 < cross a b c) (s :: w1x :: Z) := by
    rw [← hLrev2]
    exact hLt3
  have hUordT3 : triples3 (fun a b c => 0 < cross a b c) (e :: u1 :: U2) := by
    rw [← hUrev2]
    exact hUt3
  have hLpairs : ∀ q ∈ pts, pairs2 (fun x y => 0 ≤ cross x y q) (s :: w1x :: Z) := by
    intro q hq
    rw [← hLrev2]
    exact pairs2_reverse _ (edgesRev_iff_pairs2.mp (hL6r q hq))
  have hUpairsOrd : ∀ q ∈ pts, pairs2 (fun x y => 0 ≤ cross x y q) (e :: u1 :: U2) := by
    intro q hq
    rw [← hUrev2]
    exact pairs2_reverse _ (hU7 q hq)
  -- distinctness at the seams
  have hlk1ne : lk1 ≠ e := by
    rcases L3 with _ | ⟨lk2, L4⟩
    · have hlk1s : lk1 = s := hL3
      intro hc
      exact hsne (by rw [← hlk1s, hc])
    · intro hc
      have h := hLconv.1
      rw [hc, cross_self_right] at h
      exact lt_irrefl 0 h
  have hu1ne : u1 ≠ e := by
    rcases U2 with _ | ⟨u2, U2'⟩
    · have hback := congrArg List.reverse hUrev2
      rw [List.reverse_reverse] at hback
      simp at hback
      intro hc
      exact hsne (by rw [hback.1, hc])
    · intro hc
      have h := hUordT3.1
      rw [hc, cross_self_left] at h
      exact lt_irrefl 0 h
  have humne : um ≠ s := by
    rcases U3 with _ | ⟨u3, U4⟩
    · have hume : um = e := hU3
      intro hc
      exact hsne (by rw [← hc, hume])
    · intro hc
      have h := hU6.1
      rw [hc, cross_self_right] at h
      exact lt_irrefl 0 h
  have hw1xne : w1x ≠ s := by
    rcases Z with _ | ⟨n3, Zr⟩
    · have hback := congrArg List.reverse hLrev2
      rw [List.reverse_reverse] at hback
      simp at hback
      intro hc
      exact hsne (by rw [hback.1, hc])
    · intro hc
      have h := hLordT3.1
      rw [hc, cross_self_left] at h
      exact lt_irrefl 0 h
  -- seam at the maximum: 0 < cross lk1 e u1
  have hPe : 0 < cross lk1 e u1 := by
    have hge : 0 ≤ cross lk1 e u1 := (hL6r u1 hu1pts).1
    rcases L3 with _ | ⟨lk2, L4⟩
    · -- degenerate lower side: use the upper turn at u1
      have hU2ne : U2 ≠ [] := by
        intro hc
        rw [hc] at hU2len
        simp only [List.length_nil] at hU2len hlensum
        omega
      obtain ⟨u2, U2', hU2rep⟩ : ∃ a r, U2 = a :: r := by
        cases h : U2 with
        | nil => exact absurd h hU2ne
        | cons a r => exact ⟨a, r, rfl⟩
      subst hU2rep
      have hu2pts : u2 ∈ pts := by
        have hm : u2 ∈ (s :: um :: U3).reverse := by
          rw [hUrev2]
          simp
        exact hU4 _ (List.mem_reverse.mp hm)
      exact seam_strict_B lk1 e u1 u2 (hmax _ hlk1pts) hlk1ne (hmax _ hu1pts) hu1ne
        hge hUordT3.1 ((hL6r u2 hu2pts).1)
    · exact seam_strict_A lk1 e u1 lk2 (hmax _ hlk1pts) hlk1ne (hmax _ hu1pts) hu1ne
        hge hLconv.1 ((hUpairsOrd lk2 (hL4 _ (by simp))).1)
  -- seam at the minimum: 0 < cross um s w1x
  have hPs : 0 < cross um s w1x := by
    have hnegne : ∀ x y : Pt, x ≠ y → negPt x ≠ negPt y := by
      intro x y hxy hc
      apply hxy
      have := congrArg negPt hc
      rwa [negPt_invol, negPt_invol] at this
    have hge : 0 ≤ cross (negPt um) (negPt s) (negPt w1x) := by
      rw [cross_negPt]
      exact (hU7 w1x hw1xpts).1
    rcases U3 with _ | ⟨u3, U4⟩
    · -- degenerate upper side: use the lower turn at w1x
      have hZne : Z ≠ [] := by
        intro hc
        rw [hc] at hZlen
        simp only [List.length_nil] at hZlen hlensum
        omega
      obtain ⟨n3, Zr, hZrep⟩ : ∃ a r, Z = a :: r := by
        cases h : Z with
        | nil => exact absurd h hZne
        | cons a r => exact ⟨a, r, rfl⟩
      subst hZrep
      have hn3pts : n3 ∈ pts := by
        have hm : n3 ∈ (e :: lk1 :: L3).reverse := by
          rw [hLrev2]
          simp
        exact hL4 _ (List.mem_reverse.mp hm)
      have hres := seam_strict_B (negPt um) (negPt s) (negPt w1x) (negPt n3)
        (lexLe_negPt.mpr (hmin _ humpts)) (hnegne _ _ humne)
        (lexLe_negPt.mpr (hmin _ hw1xpts)) (hnegne _ _ hw1xne)
        hge
        (by rw [cross_negPt]; exact hLordT3.1)
        (by rw [cross_negPt]; exact (hU7 n3 hn3pts).1)
      rwa [cross_negPt] at hres
    · have hu3pts : u3 ∈ pts := hU4 _ (by simp)
      have hres := seam_strict_A (negPt um) (negPt s) (negPt w1x) (negPt u3)
        (lexLe_negPt.mpr (hmin _ humpts)) (hnegne _ _ humne)
        (lexLe_negPt.mpr (hmin _ hw1xpts)) (hnegne _ _ hw1xne)
        hge
        (by rw [cross_negPt]; exact hU6.1)
        (by rw [cross_negPt]; exact (hLpairs u3 hu3pts).1)
      rwa [cross_negPt] at hres
  -- glue the upper chain with the seam-minimum triple
  have hT_U : triples3 (fun a b c => 0 < cross a b c)
      (U3.reverse ++ um :: s :: [w1x]) := by
    apply triples3_glue
    · simpa [List.reverse_cons, List.append_assoc] using hUt3
    · exact ⟨hPs, trivial⟩
  -- glue the lower chain with the seam-maximum triple and the upper part
  have hT_full : triples3 (fun a b c => 0 < cross a b c)
      (L3.reverse ++ lk1 :: e :: u1 :: (U2 ++ [w1x])) := by
    apply triples3_glue
    · simpa [List.reverse_cons, List.append_assoc] using hLt3
    · refine ⟨hPe, ?_⟩
      have h := hT_U
      have heq : U3.reverse ++ um :: s :: [w1x] = (s :: um :: U3).reverse ++ [w1x] := by
        simp [List.reverse_cons, List.append_assoc]
      rw [heq, hUrev2] at h
      simpa [List.cons_append] using h
  -- cyclic index form
  have hH0 : ((lk1 :: L3).reverse ++ (um :: U3).reverse).getD 0 ⟨0,0⟩ = s := by
    rw [getD_zero_headD,
      headD_append ((um :: U3).reverse) (show (lk1 :: L3).reverse ≠ [] by simp) ⟨0,0⟩,
      headD_reverse]
    have h3' := hL3
    rw [getLastD_cons_ne (by simp) ⟨0,0⟩] at h3'
    exact h3'
  have hLrev2' : (lk1 :: L3).reverse ++ [e] = s :: w1x :: Z := by
    rw [← List.reverse_cons]
    exact hLrev2
  have hw1H : ((lk1 :: L3).reverse ++ (um :: U3).reverse).getD 1 ⟨0,0⟩ = w1x := by
    rcases lt_or_ge 1 (lk1 :: L3).reverse.length with h | h
    · rw [getD_append_lt ⟨0,0⟩ _ _ 1 h]
      have h2 : ((lk1 :: L3).reverse ++ [e]).getD 1 ⟨0,0⟩ = w1x := by
        rw [hLrev2']
        rfl
      rw [← h2, getD_append_lt ⟨0,0⟩ _ _ 1 h]
    · have hL30 : L3 = [] := by
        have hlen' : (lk1 :: L3).reverse.length = L3.length + 1 := by
          simp only [List.length_reverse, List.length_cons]
        rw [hlen'] at h
        cases L3 with
        | nil => rfl
        | cons a r => simp only [List.length_cons] at h; omega
      subst hL30
      have hZ0 : Z = [] := by
        simp only [List.length_nil] at hZlen
        exact List.length_eq_zero.mp hZlen
      subst hZ0
      have hinj := hLrev2'
      simp at hinj
      rw [show (1:ℕ) = ([lk1] : List Pt).reverse.length + 0 from by simp, getD_append_ge]
      rw [getD_zero_headD, headD_reverse]
      have h3' := hU3
      rw [getLastD_cons_ne (by simp) ⟨0,0⟩] at h3'
      rw [h3']
      exact hinj.2
  apply isConvexCCWb_of_triples3 _ h3
  rw [hH0, hw1H]
  have hBs : (um :: U3).reverse ++ [s] = e :: u1 :: U2 := by
    rw [← List.reverse_cons]
    exact hUrev2
  have hlists : (((lk1 :: L3).reverse ++ (um :: U3).reverse) ++ [s, w1x])
      = L3.reverse ++ lk1 :: e :: u1 :: (U2 ++ [w1x]) := by
    have h1 : (((lk1 :: L3).reverse ++ (um :: U3).reverse) ++ [s, w1x])
        = L3.reverse ++ ([lk1] ++ (((um :: U3).reverse ++ [s]) ++ [w1x])) := by
      simp [List.reverse_cons, List.append_assoc]
    rw [h1, hBs]
    simp [List.cons_append]
  rw [hlists]
  exact hT_full

instance : IsTotal Pt lexLe := ⟨lexLe_total⟩

instance : IsTrans Pt lexLe := ⟨fun _ _ _ h1 h2 => lexLe_trans h1 h2⟩

/-- C7: the polygon returned by `convexHull` is convex — whenever it has at
least three vertices, every cyclic triple of consecutive vertices is a strict
left turn — and every input point lies on or inside it (it is weakly left of
every directed hull edge). -/
theorem convexHull_correct (points : List Pt) :
    (3 ≤ (convexHull points).length → isConvexCCWb (convexHull points) = true) ∧
    ∀ p ∈ points, insideHullb (convexHull points) p = true := by
  by_cases hlen : points.length ≤ 1
  · have hh : convexHull points = points := by
      rw [convexHull, if_pos hlen]
    constructor
    · intro h3
      rw [hh] at h3
      omega
    · intro p hp
      rw [hh]
      cases points with
      | nil => simp at hp
      | cons a rest =>
          have hr : rest = [] := by
            cases rest with
            | nil => rfl
            | cons b r => simp at hlen
          subst hr
          have hpa : p = a := by simpa using hp
          subst hpa
          apply insideHullb_const
          intro c hc
          simpa using hc
  · push_neg at hlen
    have hperm := List.perm_insertionSort lexLe points
    have hpw : List.Pairwise lexLe (points.insertionSort lexLe) :=
      List.sorted_insertionSort lexLe points
    have hlen2 : (points.insertionSort lexLe).length = points.length := hperm.length_eq
    have hne : points.insertionSort lexLe ≠ [] := by
      intro hc
      rw [hc] at hlen2
      simp at hlen2
      omega
    have hhull : convexHull points
        = (buildChain [] (points.insertionSort lexLe)).tail.reverse
          ++ (buildChain [] (points.insertionSort lexLe).reverse).tail.reverse := by
      rw [convexHull, if_neg (by omega)]
    by_cases hsne : (points.insertionSort lexLe).headD ⟨0,0⟩
        = (points.insertionSort lexLe).getLastD ⟨0,0⟩
    · -- all points coincide: the hull has at most two vertices, all equal
      have hall : ∀ c ∈ points.insertionSort lexLe,
          c = (points.insertionSort lexLe).headD ⟨0,0⟩ := by
        intro c hc
        apply lexLe_antisymm
        · rw [hsne]
          exact pairwise_getLastD_max hpw ⟨0,0⟩ c hc
        · exact pairwise_headD_min hpw ⟨0,0⟩ c hc
      have hrep : points.insertionSort lexLe
          = (points.insertionSort lexLe).headD ⟨0,0⟩
            :: (points.insertionSort lexLe).tail :=
        eq_headD_cons_tail hne ⟨0,0⟩
      have e1 : buildChain [] (points.insertionSort lexLe)
          = buildChain [(points.insertionSort lexLe).headD ⟨0,0⟩]
              ((points.insertionSort lexLe).tail) := by
        nth_rewrite 1 [hrep]
        rfl
      have hLres := buildChain_const ((points.insertionSort lexLe).headD ⟨0,0⟩)
        ((points.insertionSort lexLe).tail)
        [(points.insertionSort lexLe).headD ⟨0,0⟩]
        (fun q hq => hall q (List.mem_of_mem_tail hq)) (Or.inl rfl)
      rw [← e1] at hLres
      have hrevne : (points.insertionSort lexLe).reverse ≠ [] := by
        simp [hne]
      have hrevhead : (points.insertionSort lexLe).reverse.headD ⟨0,0⟩
          = (points.insertionSort lexLe).headD ⟨0,0⟩ := by
        rw [headD_reverse]
        exact hsne.symm
      have hrevrep : (points.insertionSort lexLe).reverse
          = (points.insertionSort lexLe).headD ⟨0,0⟩
            :: (points.insertionSort lexLe).reverse.tail := by
        rw [← hrevhead]
        exact eq_headD_cons_tail hrevne ⟨0,0⟩
      have e2 : buildChain [] (points.insertionSort lexLe).reverse
          = buildChain [(points.insertionSort lexLe).headD ⟨0,0⟩]
              ((points.insertionSort lexLe).reverse.tail) := by
        nth_rewrite 1 [hrevrep]
        rfl
      have hUres := buildChain_const ((points.insertionSort lexLe).headD ⟨0,0⟩)
        ((points.insertionSort lexLe).reverse.tail)
        [(points.insertionSort lexLe).headD ⟨0,0⟩]
        (fun q hq => hall q (List.mem_reverse.mp (List.mem_of_mem_tail hq)))
        (Or.inl rfl)
      rw [← e2] at hUres
      constructor
      · intro h3
        exfalso
        rw [hhull] at h3
        rcases hLres with hL | hL <;> rcases hUres with hU | hU <;>
          rw [hL, hU] at h3 <;> simp at h3
      · intro p hp
        rw [hhull]
        have hpe : p = (points.insertionSort lexLe).headD ⟨0,0⟩ :=
          hall p (hperm.mem_iff.mpr hp)
        rcases hLres with hL | hL <;> rcases hUres with hU | hU <;>
          rw [hL, hU, hpe] <;>
          · apply insideHullb_const
            intro c hc
            simp at hc ⊢
            try exact hc
    · constructor
      · intro h3
        rw [hhull] at h3 ⊢
        exact hull_convex _ hpw hne hsne h3
      · intro p hp
        rw [hhull]
        exact hull_contain _ hpw hne hsne p (hperm.mem_iff.mpr hp)

/-- Witness for C7 at a concrete point set: hull of a triangle with an
interior chord point. -/
theorem convexHull_correct_witness :
    isConvexCCWb (convexHull [⟨0,0⟩, ⟨2,0⟩, ⟨0,2⟩, ⟨1,1⟩]) = true ∧
    insideHullb (convexHull [⟨0,0⟩, ⟨2,0⟩, ⟨0,2⟩, ⟨1,1⟩]) ⟨1,1⟩ = true :=
  ⟨(convexHull_correct [⟨0,0⟩, ⟨2,0⟩, ⟨0,2⟩, ⟨1,1⟩]).1 (by decide),
   (convexHull_correct [⟨0,0⟩, ⟨2,0⟩, ⟨0,2⟩, ⟨1,1⟩]).2 ⟨1,1⟩ (by decide)⟩

end ShapeDetector
